import Mathlib

/-!
Verification development for the four workflow-rewriting maintenance scripts
(`scripts/fix-all-pnpm-workflows.py`, `scripts/fix-pnpm-workflows.py`,
`scripts/update-pnpm-version.py`, `scripts/maintenance/fix-github-workflows.py`).

Text is modelled as `List Char` (Python `str`).  Python's `re.sub` with the
concrete patterns used by the scripts performs a left-to-right scan replacing
non-overlapping matches; every pattern in these scripts is built from literals
and the classes `\d`, `\s`, `[^\n]` whose greedy repetitions are always
followed by a character outside the class, so greedy matching is exact maximal
munch and each matcher is a deterministic function.  `scan` below is that
substitution loop; `SubstFn` packages a matcher that, on success at the
current position, returns the replacement text to emit and the rest of the
input after the consumed (nonempty) match.
-/

namespace WF

/-- Python's `\s` class over the ASCII text these workflow files contain. -/
def pyIsSpace (c : Char) : Bool :=
  c = ' ' || c = '\t' || c = '\n' || c = '\r' || c = '\x0b' || c = '\x0c'

/-- Number of positions of `s` at which pattern `A` occurs (sliding count;
the patterns counted in this development have no border, so this agrees with
Python's non-overlapping occurrence count). -/
def countOcc (A : List Char) : List Char → Nat
  | [] => 0
  | c :: rest => (if A.isPrefixOf (c :: rest) then 1 else 0) + countOcc A rest

/-- Python's substring test `A in s`. -/
def containsSub (A : List Char) : List Char → Bool
  | [] => A.isEmpty
  | c :: rest => A.isPrefixOf (c :: rest) || containsSub A rest

/-- A single substitution rule: `tryAt s` is `some (o, r)` when a match starts
at the head of `s`, where `o` is the text to emit and `r` the rest of the
input after the consumed match. -/
structure SubstFn where
  tryAt : List Char → Option (List Char × List Char)
  consumes : ∀ s o r, tryAt s = some (o, r) → ∃ m, m ≠ [] ∧ s = m ++ r

theorem SubstFn.shrink (f : SubstFn) {s : List Char} {o r : List Char}
    (h : f.tryAt s = some (o, r)) : r.length < s.length := by
  obtain ⟨m, hm, rfl⟩ := f.consumes s o r h
  have : 0 < m.length := List.length_pos.mpr hm
  simp [List.length_append]
  omega

/-- The substitution loop, with explicit fuel (one unit per scanned position). -/
def scanFuel (f : SubstFn) : Nat → List Char → List Char
  | _, [] => []
  | 0, s => s
  | n + 1, c :: rest =>
    match f.tryAt (c :: rest) with
    | some (o, r) => o ++ scanFuel f n r
    | none => c :: scanFuel f n rest

/-- `re.sub`: replace every match of `f`, scanning left to right. -/
def scan (f : SubstFn) (s : List Char) : List Char := scanFuel f s.length s

/-- Number of matches replaced by the scan (`len(re.findall(...))`,
`re.subn`'s count), with fuel. -/
def countMFuel (f : SubstFn) : Nat → List Char → Nat
  | _, [] => 0
  | 0, _ => 0
  | n + 1, c :: rest =>
    match f.tryAt (c :: rest) with
    | some (_, r) => 1 + countMFuel f n r
    | none => countMFuel f n rest

/-- Number of matches of `f` in `s`. -/
def countM (f : SubstFn) (s : List Char) : Nat := countMFuel f s.length s

/-- `re.search(...) is not None`: some position of `s` starts a match. -/
def existsM (f : SubstFn) : List Char → Bool
  | [] => (f.tryAt []).isSome
  | c :: rest => (f.tryAt (c :: rest)).isSome || existsM f rest

theorem scanFuel_fuel (f : SubstFn) :
    ∀ n m s, s.length ≤ n → s.length ≤ m → scanFuel f n s = scanFuel f m s := by
  intro n
  induction n with
  | zero =>
    intro m s hn _
    have : s = [] := List.eq_nil_of_length_eq_zero (Nat.le_zero.mp hn)
    subst this
    cases m <;> rfl
  | succ n ih =>
    intro m s hn hm
    cases s with
    | nil => cases m <;> rfl
    | cons c rest =>
      cases m with
      | zero => simp at hm
      | succ m =>
        simp only [scanFuel]
        cases h : f.tryAt (c :: rest) with
        | some pr =>
          obtain ⟨o, r⟩ := pr
          have hr := f.shrink h
          simp only [List.length_cons] at hn hm hr
          simp only []
          rw [ih m r (by omega) (by omega)]
        | none =>
          simp only [List.length_cons] at hn hm
          simp only []
          rw [ih m rest (by omega) (by omega)]

theorem scan_nil (f : SubstFn) : scan f [] = [] := rfl

theorem scan_cons_match (f : SubstFn) {c : Char} {rest o r : List Char}
    (h : f.tryAt (c :: rest) = some (o, r)) :
    scan f (c :: rest) = o ++ scan f r := by
  have hr := f.shrink h
  simp only [List.length_cons] at hr
  simp only [scan, List.length_cons, scanFuel, h]
  rw [scanFuel_fuel f rest.length r.length r (by omega) (by omega)]

theorem scan_cons_skip (f : SubstFn) {c : Char} {rest : List Char}
    (h : f.tryAt (c :: rest) = none) :
    scan f (c :: rest) = c :: scan f rest := by
  simp only [scan, List.length_cons, scanFuel, h]

theorem countMFuel_fuel (f : SubstFn) :
    ∀ n m s, s.length ≤ n → s.length ≤ m → countMFuel f n s = countMFuel f m s := by
  intro n
  induction n with
  | zero =>
    intro m s hn _
    have : s = [] := List.eq_nil_of_length_eq_zero (Nat.le_zero.mp hn)
    subst this
    cases m <;> rfl
  | succ n ih =>
    intro m s hn hm
    cases s with
    | nil => cases m <;> rfl
    | cons c rest =>
      cases m with
      | zero => simp at hm
      | succ m =>
        simp only [countMFuel]
        cases h : f.tryAt (c :: rest) with
        | some pr =>
          obtain ⟨o, r⟩ := pr
          have hr := f.shrink h
          simp only [List.length_cons] at hn hm hr
          simp only []
          rw [ih m r (by omega) (by omega)]
        | none =>
          simp only [List.length_cons] at hn hm
          simp only []
          rw [ih m rest (by omega) (by omega)]

theorem countM_nil (f : SubstFn) : countM f [] = 0 := rfl

theorem countM_cons_match (f : SubstFn) {c : Char} {rest o r : List Char}
    (h : f.tryAt (c :: rest) = some (o, r)) :
    countM f (c :: rest) = 1 + countM f r := by
  have hr := f.shrink h
  simp only [List.length_cons] at hr
  simp only [countM, List.length_cons, countMFuel, h]
  rw [countMFuel_fuel f rest.length r.length r (by omega) (by omega)]

theorem countM_cons_skip (f : SubstFn) {c : Char} {rest : List Char}
    (h : f.tryAt (c :: rest) = none) :
    countM f (c :: rest) = countM f rest := by
  simp only [countM, List.length_cons, countMFuel, h]

/-! ### Aliases for library lemmas (local names) -/

theorem isPre_iff {l₁ l₂ : List Char} : l₁.isPrefixOf l₂ = true ↔ l₁ <+: l₂ :=
  List.isPrefixOf_iff_prefix

theorem pre_or_pre {l₁ l₂ l₃ : List Char} (h₁ : l₁ <+: l₃) (h₂ : l₂ <+: l₃) :
    l₁ <+: l₂ ∨ l₂ <+: l₁ :=
  List.prefix_or_prefix_of_prefix h₁ h₂

theorem take_pre (n : Nat) (l : List Char) : l.take n <+: l :=
  List.take_prefix n l

/-- A prefix of an append splits off: if `x` is itself a prefix of `P`, the
remainder of `P` is a prefix of the second part. -/
theorem pre_drop_of_pre {P x w : List Char} (h : x <+: P) (h2 : P <+: x ++ w) :
    P.drop x.length <+: w := by
  obtain ⟨t, rfl⟩ := h
  rw [List.drop_left]
  exact (List.prefix_append_right_inj x).mp h2

/-! ### No-match predicates and scan decomposition -/

/-- No position of `s` (viewed as the set of its suffixes, as Python's scanner
walks them) starts a match of `f`. -/
def NoMatchAll (f : SubstFn) (s : List Char) : Prop :=
  ∀ t, t <:+ s → f.tryAt t = none

theorem SubstFn.tryAt_nil (f : SubstFn) : f.tryAt [] = none := by
  cases h : f.tryAt [] with
  | none => rfl
  | some pr =>
    obtain ⟨m, hm, hmr⟩ := f.consumes [] pr.1 pr.2 (by rw [h])
    exact absurd (List.append_eq_nil.mp hmr.symm).1 hm

theorem noMatchAll_of_suffix {f : SubstFn} {s t : List Char}
    (h : NoMatchAll f s) (ht : t <:+ s) : NoMatchAll f t :=
  fun u hu => h u (hu.trans ht)

theorem scan_of_noMatch {f : SubstFn} {s : List Char} (h : NoMatchAll f s) :
    scan f s = s := by
  induction s with
  | nil => rfl
  | cons c rest ih =>
    rw [scan_cons_skip f (h (c :: rest) (List.suffix_refl _))]
    rw [ih (noMatchAll_of_suffix h (List.suffix_cons c rest))]

theorem countM_of_noMatch {f : SubstFn} {s : List Char} (h : NoMatchAll f s) :
    countM f s = 0 := by
  induction s with
  | nil => rfl
  | cons c rest ih =>
    rw [countM_cons_skip f (h (c :: rest) (List.suffix_refl _))]
    exact ih (noMatchAll_of_suffix h (List.suffix_cons c rest))

theorem isSome_false_iff {α : Type} (o : Option α) : o.isSome = false ↔ o = none := by
  cases o <;> simp

theorem existsM_eq_false_iff (f : SubstFn) (s : List Char) :
    existsM f s = false ↔ NoMatchAll f s := by
  induction s with
  | nil =>
    simp only [existsM, isSome_false_iff]
    constructor
    · intro h t ht
      rw [List.suffix_nil.mp ht]; exact h
    · intro h; exact h [] (List.suffix_refl _)
  | cons c rest ih =>
    simp only [existsM, Bool.or_eq_false_iff, isSome_false_iff, ih]
    constructor
    · rintro ⟨h1, h2⟩ t ht
      rcases List.suffix_cons_iff.mp ht with rfl | ht'
      · exact h1
      · exact h2 t ht'
    · intro h
      exact ⟨h _ (List.suffix_refl _),
        fun t ht => h t (ht.trans (List.suffix_cons c rest))⟩

/-- Scanning copies the first `m` characters verbatim when no match starts
among them. -/
theorem scan_copy {f : SubstFn} :
    ∀ (m : Nat) (s : List Char), (∀ k < m, f.tryAt (s.drop k) = none) →
      scan f s = s.take m ++ scan f (s.drop m) := by
  intro m
  induction m with
  | zero => intro s _; simp
  | succ m ih =>
    intro s h
    cases s with
    | nil => simp [scan_nil]
    | cons c rest =>
      have h0 : f.tryAt (c :: rest) = none := h 0 (Nat.succ_pos m)
      rw [scan_cons_skip f h0]
      have hrest : ∀ k < m, f.tryAt (rest.drop k) = none := by
        intro k hk
        exact h (k + 1) (by omega)
      rw [ih rest hrest]
      simp

/-- Normal form of a scan: either no match at all, or a first match at
position `m`, everything before copied verbatim. -/
theorem scan_first (f : SubstFn) (s : List Char) :
    (NoMatchAll f s ∧ scan f s = s ∧ countM f s = 0) ∨
    ∃ m o r, f.tryAt (s.drop m) = some (o, r) ∧ m ≤ s.length ∧
      (∀ k < m, f.tryAt (s.drop k) = none) ∧
      scan f s = s.take m ++ (o ++ scan f r) ∧
      countM f s = 1 + countM f r := by
  induction s with
  | nil =>
    left
    refine ⟨?_, rfl, rfl⟩
    intro t ht
    rw [List.suffix_nil.mp ht]
    exact f.tryAt_nil
  | cons c rest ih =>
    cases h : f.tryAt (c :: rest) with
    | some pr =>
      obtain ⟨o, r⟩ := pr
      right
      exact ⟨0, o, r, h, by simp, by omega, by
        simp [scan_cons_match f h], by simp [countM_cons_match f h]⟩
    | none =>
      rcases ih with ⟨hnm, hsc, hcm⟩ | ⟨m, o, r, hm, hml, hbefore, hsc, hcm⟩
      · left
        refine ⟨?_, ?_, ?_⟩
        · intro t ht
          rcases List.suffix_cons_iff.mp ht with rfl | ht'
          · exact h
          · exact hnm t ht'
        · rw [scan_cons_skip f h, hsc]
        · rw [countM_cons_skip f h, hcm]
      · right
        refine ⟨m + 1, o, r, hm, by simpa using hml, ?_, ?_, ?_⟩
        · intro k hk
          cases k with
          | zero => exact h
          | succ k => exact hbefore k (by omega)
        · rw [scan_cons_skip f h, hsc]; rfl
        · rw [countM_cons_skip f h, hcm]

/-! ### Occurrence counting -/

theorem countOcc_eq_zero_iff {A : List Char} (hA : A ≠ []) (s : List Char) :
    countOcc A s = 0 ↔ ∀ t, t <:+ s → ¬ A <+: t := by
  induction s with
  | nil =>
    simp only [countOcc, true_iff]
    intro t ht hp
    rw [List.suffix_nil.mp ht] at hp
    exact hA (List.prefix_nil.mp hp)
  | cons c rest ih =>
    simp only [countOcc]
    constructor
    · intro h t ht
      have h1 : ¬ A.isPrefixOf (c :: rest) = true := by
        intro hp; simp [hp] at h
      have h2 : countOcc A rest = 0 := by
        rcases Nat.add_eq_zero.mp h with ⟨_, h2⟩; exact h2
      rcases List.suffix_cons_iff.mp ht with rfl | ht'
      · intro hp; exact h1 (isPre_iff.mpr hp)
      · exact (ih.mp h2) t ht'
    · intro h
      have h1 : A.isPrefixOf (c :: rest) = false := by
        rw [Bool.eq_false_iff]
        intro hp
        exact h _ (List.suffix_refl _) (isPre_iff.mp hp)
      rw [h1]
      simp only [if_neg Bool.false_ne_true, Nat.zero_add]
      exact ih.mpr (fun t ht => h t (ht.trans (List.suffix_cons c rest)))

theorem containsSub_iff {A : List Char} (s : List Char) :
    containsSub A s = true ↔ ∃ t, t <:+ s ∧ A <+: t := by
  induction s with
  | nil =>
    simp only [containsSub, List.isEmpty_iff]
    constructor
    · rintro rfl; exact ⟨[], List.suffix_refl _, List.prefix_refl _⟩
    · rintro ⟨t, ht, hp⟩
      rw [List.suffix_nil.mp ht] at hp
      exact List.prefix_nil.mp hp
  | cons c rest ih =>
    simp only [containsSub, Bool.or_eq_true, isPre_iff, ih]
    constructor
    · rintro (hp | ⟨t, ht, hp⟩)
      · exact ⟨c :: rest, List.suffix_refl _, hp⟩
      · exact ⟨t, ht.trans (List.suffix_cons c rest), hp⟩
    · rintro ⟨t, ht, hp⟩
      rcases List.suffix_cons_iff.mp ht with rfl | ht'
      · exact Or.inl hp
      · exact Or.inr ⟨t, ht', hp⟩

theorem containsSub_eq_false_iff {A : List Char} (s : List Char) :
    containsSub A s = false ↔ ∀ t, t <:+ s → ¬ A <+: t := by
  rw [← Bool.not_eq_true, containsSub_iff]
  push_neg
  constructor
  · intro h t ht hp; exact h t ht hp
  · intro h t ht hp; exact h t ht hp

theorem countOcc_zero_of_noSub {A : List Char} (hA : A ≠ []) {s : List Char}
    (h : containsSub A s = false) : countOcc A s = 0 :=
  (countOcc_eq_zero_iff hA s).mpr ((containsSub_eq_false_iff s).mp h)

/-- Occurrences of an append, when none starts within the first part. -/
theorem countOcc_append_of_no_start {A x t : List Char}
    (h : ∀ i < x.length, ¬ A <+: (x.drop i ++ t)) :
    countOcc A (x ++ t) = countOcc A t := by
  induction x with
  | nil => simp
  | cons c x' ih =>
    have h0 : ¬ A.isPrefixOf (c :: (x' ++ t)) = true := by
      intro hp
      exact h 0 (by simp) (by simpa using isPre_iff.mp hp)
    show countOcc A (c :: (x' ++ t)) = countOcc A t
    rw [countOcc, if_neg h0, Nat.zero_add]
    exact ih (fun i hi => by simpa using h (i + 1) (by simpa using Nat.succ_lt_succ hi))

/-- Suffixes of an append: a suffix either lies in the second part or is a
tail of the first part glued to the whole second part. -/
theorem suffix_append_cases {u x w : List Char} (h : u <:+ x ++ w) :
    u <:+ w ∨ ∃ i, i < x.length ∧ u = x.drop i ++ w := by
  by_cases hl : u.length ≤ w.length
  · exact Or.inl (List.suffix_of_suffix_length_le h (List.suffix_append x w) hl)
  · right
    obtain ⟨t, hteq⟩ := h
    have hlen : t.length + u.length = x.length + w.length := by
      have := congrArg List.length hteq
      simpa [List.length_append] using this
    have htx : t.length < x.length := by omega
    refine ⟨t.length, htx, ?_⟩
    have : (t ++ u).drop t.length = (x ++ w).drop t.length := by rw [hteq]
    rw [List.drop_left] at this
    rw [this, List.drop_append_of_le_length (Nat.le_of_lt htx)]

/-! ### Character-level mismatch tools -/

/-- Boolean witness that `P` differs from `x` within their common range;
makes "this pattern can never match here, whatever follows" decidable. -/
def mismatchB (P x : List Char) : Bool :=
  (List.range (min P.length x.length)).any (fun k => P.getD k ' ' != x.getD k ' ')

theorem getD_of_pre {P v : List Char} (h : P <+: v) {k : Nat} (hk : k < P.length) :
    v.getD k ' ' = P.getD k ' ' := by
  obtain ⟨t, rfl⟩ := h
  exact List.getD_append P t ' ' k hk

theorem not_pre_of_mismatch {P x : List Char} (h : mismatchB P x = true) :
    ∀ w, ¬ P <+: x ++ w := by
  intro w hp
  simp only [mismatchB, List.any_eq_true, List.mem_range, bne_iff_ne] at h
  obtain ⟨k, hk, hne⟩ := h
  have hkP : k < P.length := lt_of_lt_of_le hk (Nat.min_le_left _ _)
  have hkx : k < x.length := lt_of_lt_of_le hk (Nat.min_le_right _ _)
  have h1 : (x ++ w).getD k ' ' = P.getD k ' ' := getD_of_pre hp hkP
  have h2 : (x ++ w).getD k ' ' = x.getD k ' ' := List.getD_append x w ' ' k hkx
  exact hne (h1 ▸ h2.symm ▸ rfl)

/-! ### Zero-occurrence preservation through a scan -/

/-- Safety of an emitted block `o` with respect to a pattern `P`: the block is
at least as long as the pattern, the pattern cannot start at any position of
the block (nor can a block tail begin the pattern), and no proper tail of the
pattern is a prefix of the block.  Decidable, so concrete instances close by
`decide`. -/
def PatBlockOk (P o : List Char) : Prop :=
  P.length ≤ o.length ∧
  (∀ i, i < o.length → ¬ P <+: o.drop i ∧ ¬ (o.drop i <+: P)) ∧
  (∀ j, 0 < j → j < P.length → ¬ (P.drop j <+: o))

theorem transfer_drop_aux {f : SubstFn} {P s : List Char}
    (Hblock : ∀ t o r, t <:+ s → f.tryAt t = some (o, r) →
      P.length ≤ o.length ∧ ∀ j, 0 < j → j < P.length → ¬ (P.drop j <+: o)) :
    ∀ n t, t.length ≤ n → t <:+ s → ∀ j, 0 < j →
      P.drop j <+: scan f t → P.drop j <+: t := by
  intro n
  induction n with
  | zero =>
    intro t htn _ j _ hpre
    have : t = [] := List.eq_nil_of_length_eq_zero (Nat.le_zero.mp htn)
    subst this
    rwa [scan_nil] at hpre
  | succ n ih =>
    intro t htn hts j hj hpre
    by_cases hjP : P.length ≤ j
    · rw [List.drop_eq_nil_of_le hjP]
      exact List.nil_prefix
    push_neg at hjP
    cases t with
    | nil => rwa [scan_nil] at hpre
    | cons c rest =>
      cases h : f.tryAt (c :: rest) with
      | some pr =>
        obtain ⟨o, r⟩ := pr
        rw [scan_cons_match f h] at hpre
        have hbo := Hblock _ o r hts h
        rcases pre_or_pre hpre (List.prefix_append o (scan f r)) with hc | hc
        · exact absurd hc (hbo.2 j hj hjP)
        · exfalso
          have h1 : o.length ≤ P.length - j := by
            have := hc.length_le
            simpa [List.length_drop] using this
          have := hbo.1
          omega
      | none =>
        rw [scan_cons_skip f h] at hpre
        cases hP : P.drop j with
        | nil => exact hP ▸ List.nil_prefix
        | cons pc ptail =>
          rw [hP] at hpre
          obtain ⟨rfl, htail⟩ := List.cons_prefix_cons.mp hpre
          have hptail : ptail = P.drop (j + 1) := by
            rw [← List.tail_drop, hP]
            rfl
          have hr : ptail <+: rest := by
            rw [hptail] at htail ⊢
            refine ih rest ?_ ((List.suffix_cons pc rest).trans hts) (j + 1)
              (by omega) htail
            simp only [List.length_cons] at htn
            omega
          exact List.cons_prefix_cons.mpr ⟨rfl, hr⟩

/-- An occurrence of a proper tail of `P` at a position of the scan output
pulls back to the corresponding input suffix. -/
theorem transfer_drop {f : SubstFn} {P s : List Char}
    (Hblock : ∀ t o r, t <:+ s → f.tryAt t = some (o, r) →
      P.length ≤ o.length ∧ ∀ j, 0 < j → j < P.length → ¬ (P.drop j <+: o))
    {t : List Char} (hts : t <:+ s) {j : Nat} (hj : 0 < j)
    (hpre : P.drop j <+: scan f t) : P.drop j <+: t :=
  transfer_drop_aux Hblock t.length t (Nat.le_refl _) hts j hj hpre

theorem scan_countOcc_zero_aux {f : SubstFn} {P s : List Char} (hP : P ≠ [])
    (Hpos : ∀ t, t <:+ s → f.tryAt t = none → ¬ P <+: t)
    (Hblock : ∀ t o r, t <:+ s → f.tryAt t = some (o, r) → PatBlockOk P o) :
    ∀ n t, t.length ≤ n → t <:+ s → countOcc P (scan f t) = 0 := by
  intro n
  induction n with
  | zero =>
    intro t htn _
    have : t = [] := List.eq_nil_of_length_eq_zero (Nat.le_zero.mp htn)
    subst this
    rfl
  | succ n ih =>
    intro t htn hts
    cases t with
    | nil => rfl
    | cons c rest =>
      cases h : f.tryAt (c :: rest) with
      | some pr =>
        obtain ⟨o, r⟩ := pr
        rw [scan_cons_match f h]
        have hbo := Hblock _ o r hts h
        have hins : ∀ i < o.length, ¬ P <+: (o.drop i ++ scan f r) := by
          intro i hi hp
          rcases pre_or_pre hp (List.prefix_append (o.drop i) (scan f r)) with hc | hc
          · exact (hbo.2.1 i hi).1 hc
          · exact (hbo.2.1 i hi).2 hc
        rw [countOcc_append_of_no_start hins]
        obtain ⟨m, hm, hmr⟩ := f.consumes _ o r h
        have hrs : r <:+ s := (hmr ▸ List.suffix_append m r).trans hts
        have hrl : r.length ≤ n := by
          have := f.shrink h
          simp only [List.length_cons] at htn this
          omega
        exact ih r hrl hrs
      | none =>
        rw [scan_cons_skip f h]
        have hhead : ¬ P.isPrefixOf (c :: scan f rest) = true := by
          intro hp
          have hp' := isPre_iff.mp hp
          cases hPc : P with
          | nil => exact hP hPc
          | cons p0 ptl =>
            rw [hPc] at hp'
            obtain ⟨rfl, htl⟩ := List.cons_prefix_cons.mp hp'
            have hdp : P.drop 1 = ptl := by rw [hPc]; rfl
            have h1 : P.drop 1 <+: rest := by
              refine transfer_drop
                (fun t o r ht hm => ⟨(Hblock t o r ht hm).1, (Hblock t o r ht hm).2.2⟩)
                ((List.suffix_cons p0 rest).trans hts) (by omega) ?_
              rw [hdp]; exact htl
            have hPt : P <+: p0 :: rest := by
              rw [hPc]
              exact List.cons_prefix_cons.mpr ⟨rfl, hdp ▸ h1⟩
            exact Hpos _ hts h hPt
        rw [countOcc, if_neg hhead, Nat.zero_add]
        refine ih rest ?_ ((List.suffix_cons c rest).trans hts)
        simp only [List.length_cons] at htn
        omega

/-- Main zero-occurrence theorem: if a pattern `P` occurs at no unmatched
position of the input and every emitted block is safe for `P`, then `P` does
not occur in the scan output at all. -/
theorem scan_countOcc_zero {f : SubstFn} {P s : List Char} (hP : P ≠ [])
    (Hpos : ∀ t, t <:+ s → f.tryAt t = none → ¬ P <+: t)
    (Hblock : ∀ t o r, t <:+ s → f.tryAt t = some (o, r) → PatBlockOk P o) :
    countOcc P (scan f s) = 0 :=
  scan_countOcc_zero_aux hP Hpos Hblock s.length s (Nat.le_refl _) (List.suffix_refl s)

/-- If `P` occurs nowhere in the input and the blocks are safe, it occurs
nowhere in the output: the positional hypothesis of `scan_countOcc_zero`
specialised to an input free of `P`. -/
theorem scan_countOcc_zero_pres {f : SubstFn} {P s : List Char} (hP : P ≠ [])
    (h0 : countOcc P s = 0)
    (Hblock : ∀ t o r, t <:+ s → f.tryAt t = some (o, r) → PatBlockOk P o) :
    countOcc P (scan f s) = 0 :=
  scan_countOcc_zero hP
    (fun t ht _ => (countOcc_eq_zero_iff hP s).mp h0 t ht) Hblock

/-! ### Preservation of "the text does not end with `pat`" through a scan -/

theorem suffix_append_cancel {u o w : List Char} (h : u ++ w <:+ o ++ w) :
    u <:+ o := by
  obtain ⟨t, hteq⟩ := h
  rw [← List.append_assoc] at hteq
  exact ⟨t, List.append_cancel_right hteq⟩

theorem scan_suffix_preserve_aux {f : SubstFn} {pat s : List Char}
    (hpat : pat ≠ [])
    (Hlen : ∀ t o r, t <:+ s → f.tryAt t = some (o, r) → pat.length ≤ o.length)
    (Htake : ∀ t o r, t <:+ s → f.tryAt t = some (o, r) →
      ∀ k, 0 < k → k ≤ pat.length → ¬ (pat.take k <:+ o))
    (hend : ¬ pat <:+ s) :
    ∀ n t, t.length ≤ n → t <:+ s → ¬ pat <:+ scan f t := by
  intro n
  induction n with
  | zero =>
    intro t htn _ hp
    have : t = [] := List.eq_nil_of_length_eq_zero (Nat.le_zero.mp htn)
    subst this
    rw [scan_nil] at hp
    exact hpat (List.suffix_nil.mp hp)
  | succ n ih =>
    intro t htn hts hp
    cases t with
    | nil =>
      rw [scan_nil] at hp
      exact hpat (List.suffix_nil.mp hp)
    | cons c rest =>
      cases h : f.tryAt (c :: rest) with
      | some pr =>
        obtain ⟨o, r⟩ := pr
        rw [scan_cons_match f h] at hp
        obtain ⟨m, hm, hmr⟩ := f.consumes _ o r h
        have hrs : r <:+ s := (hmr ▸ List.suffix_append m r).trans hts
        have hrl : r.length ≤ n := by
          have := f.shrink h
          simp only [List.length_cons] at htn this
          omega
        by_cases hl : pat.length ≤ (scan f r).length
        · exact ih r hrl hrs
            (List.suffix_of_suffix_length_le hp (List.suffix_append o (scan f r)) hl)
        · push_neg at hl
          have hw : scan f r <:+ pat :=
            List.suffix_of_suffix_length_le (List.suffix_append o (scan f r)) hp
              (Nat.le_of_lt hl)
          obtain ⟨u, hu⟩ := hw
          have huo : u <:+ o := suffix_append_cancel (hu ▸ hp)
          have hulen : u.length + (scan f r).length = pat.length := by
            have := congrArg List.length hu
            simpa [List.length_append] using this
          have hut : u = pat.take u.length := by
            have : pat.take u.length = (u ++ scan f r).take u.length := by rw [hu]
            rw [List.take_left] at this
            exact this.symm
          exact Htake _ o r hts h u.length (by omega) (by omega) (hut ▸ huo)
      | none =>
        rw [scan_cons_skip f h] at hp
        rcases List.suffix_cons_iff.mp hp with heq | hp'
        · -- pat spans the whole remaining output
          rcases scan_first f rest with ⟨hnm, hsc, _⟩ | ⟨m, o, r, hmr, _, _, hsc, _⟩
          · rw [hsc] at heq
            exact hend (heq ▸ hts)
          · exfalso
            have h1 : pat.length = 1 + (scan f rest).length := by
              have := congrArg List.length heq
              simpa [List.length_cons, Nat.add_comm] using this
            have h2 : pat.length ≤ o.length :=
              Hlen _ o r ((List.drop_suffix m rest).trans
                ((List.suffix_cons c rest).trans hts)) hmr
            have h3 : (scan f rest).length =
                (rest.take m).length + (o.length + (scan f r).length) := by
              rw [hsc]
              simp [List.length_append]
            omega
        · exact ih rest (by simp only [List.length_cons] at htn; omega)
            ((List.suffix_cons c rest).trans hts) hp'

theorem scan_suffix_preserve {f : SubstFn} {pat s : List Char}
    (hpat : pat ≠ [])
    (Hlen : ∀ t o r, t <:+ s → f.tryAt t = some (o, r) → pat.length ≤ o.length)
    (Htake : ∀ t o r, t <:+ s → f.tryAt t = some (o, r) →
      ∀ k, 0 < k → k ≤ pat.length → ¬ (pat.take k <:+ o))
    (hend : ¬ pat <:+ s) : ¬ pat <:+ scan f s :=
  scan_suffix_preserve_aux hpat Hlen Htake hend s.length s (Nat.le_refl _)
    (List.suffix_refl s)

/-! ### Literal substitution rules

`str.replace(A, B)` and `re.sub` with a literal pattern both replace the
non-overlapping occurrences of `A` left to right. -/

/-- Matcher of the literal rule `A → B`. -/
def litTry (A B : List Char) (s : List Char) : Option (List Char × List Char) :=
  if A.isPrefixOf s then some (B, s.drop A.length) else none

def litSubst (A B : List Char) (hA : A ≠ []) : SubstFn where
  tryAt := litTry A B
  consumes := by
    intro s o r h
    simp only [litTry] at h
    split at h
    next hp =>
      obtain ⟨t, rfl⟩ := isPre_iff.mp hp
      rw [List.drop_left, Option.some.injEq, Prod.mk.injEq] at h
      obtain ⟨rfl, rfl⟩ := h
      exact ⟨A, hA, rfl⟩
    next => exact absurd h (by simp)

theorem litSubst_tryAt (A B : List Char) (hA : A ≠ []) (s : List Char) :
    (litSubst A B hA).tryAt s = litTry A B s := rfl

theorem litTry_eq_none_iff {A B s : List Char} :
    litTry A B s = none ↔ ¬ A <+: s := by
  simp only [litTry]
  split
  next hp => simp [isPre_iff.mp hp]
  next hp =>
    simp only [true_iff]
    exact fun hc => hp (isPre_iff.mpr hc)

theorem litSubst_noMatchAll {A B : List Char} (hA : A ≠ []) {s : List Char}
    (h : countOcc A s = 0) : NoMatchAll (litSubst A B hA) s := by
  intro t ht
  rw [litSubst_tryAt, litTry_eq_none_iff]
  exact (countOcc_eq_zero_iff hA s).mp h t ht

/-- With no occurrence of `A`, the literal substitution is the identity. -/
theorem litSubst_id {A B : List Char} (hA : A ≠ []) {s : List Char}
    (h : countOcc A s = 0) : scan (litSubst A B hA) s = s :=
  scan_of_noMatch (litSubst_noMatchAll hA h)

theorem countOcc_append_head {B w : List Char} (hB : B ≠ [])
    (h : ∀ i, 0 < i → i < B.length → ¬ B <+: (B.drop i ++ w)) :
    countOcc B (B ++ w) = 1 + countOcc B w := by
  cases B with
  | nil => exact absurd rfl hB
  | cons b B' =>
    show countOcc (b :: B') (b :: (B' ++ w)) = _
    rw [countOcc]
    have hpre : (b :: B').isPrefixOf (b :: (B' ++ w)) = true :=
      isPre_iff.mpr ⟨w, by simp⟩
    rw [if_pos hpre]
    have : countOcc (b :: B') (B' ++ w) = countOcc (b :: B') w := by
      refine countOcc_append_of_no_start ?_
      intro i hi
      exact h (i + 1) (Nat.succ_pos i) (by simpa using Nat.succ_lt_succ hi)
    rw [this]

/-- Occurrence count for the literal rule `A → B`: each occurrence of `A`
becomes one of `B`, occurrences of `B` already present are kept, no occurrence
of `A` survives (that last part is `scan_countOcc_zero`).  The side conditions
say that `A` and `B` have no borders and do not overlap each other; they are
decidable and hold for the rules of these scripts. -/
theorem lit_countB_aux {A B : List Char} (hA : A ≠ []) (hB : B ≠ [])
    (hc0 : ∀ i, 0 < i → i < A.length → ¬ (A.drop i <+: A))
    (hc1 : ∀ i, 0 < i → i < B.length → ¬ (B.drop i <+: B))
    (hc2 : ∀ i, i < A.length → ¬ B <+: A.drop i ∧ ¬ (A.drop i <+: B))
    (hc3 : ∀ i, 0 < i → i < B.length → ¬ A <+: B.drop i ∧ ¬ (B.drop i <+: A)) :
    ∀ n s, s.length ≤ n →
      countOcc B (scan (litSubst A B hA) s) = countOcc B s + countOcc A s := by
  intro n
  induction n with
  | zero =>
    intro s hsn
    have : s = [] := List.eq_nil_of_length_eq_zero (Nat.le_zero.mp hsn)
    subst this
    rfl
  | succ n ih =>
    intro s hsn
    cases s with
    | nil => rfl
    | cons c rest =>
      cases h : (litSubst A B hA).tryAt (c :: rest) with
      | some pr =>
        obtain ⟨o, r⟩ := pr
        have hlit : litTry A B (c :: rest) = some (o, r) := h
        rw [litTry] at hlit
        split at hlit
        next hp =>
          rw [Option.some.injEq, Prod.mk.injEq] at hlit
          obtain ⟨rfl, hr⟩ := hlit
          obtain ⟨t, ht⟩ := isPre_iff.mp hp
          have hrt : r = t := by
            rw [← hr, ← ht, List.drop_left]
          subst hrt
          rw [scan_cons_match (litSubst A B hA) h]
          have hno : ∀ i, 0 < i → i < B.length → ¬ B <+: (B.drop i ++ scan (litSubst A B hA) r) := by
            intro i hi hiB hpre
            rcases pre_or_pre hpre (List.prefix_append _ _) with hc | hc
            · have h1 := hc.length_le
              rw [List.length_drop] at h1
              omega
            · exact hc1 i hi hiB hc
          rw [countOcc_append_head hB hno]
          have hrl : r.length ≤ n := by
            have := (litSubst A B hA).shrink h
            simp only [List.length_cons] at hsn this
            omega
          rw [ih r hrl]
          -- input side: c :: rest = A ++ r
          have hcr : c :: rest = A ++ r := by rw [← ht]
          have hBin : countOcc B (c :: rest) = countOcc B r := by
            rw [hcr]
            refine countOcc_append_of_no_start ?_
            intro i hi hpre
            rcases pre_or_pre hpre (List.prefix_append _ _) with hc | hc
            · exact (hc2 i hi).1 hc
            · exact (hc2 i hi).2 hc
          have hAin : countOcc A (c :: rest) = 1 + countOcc A r := by
            rw [hcr]
            refine countOcc_append_head hA ?_
            intro i hi hiA hpre
            rcases pre_or_pre hpre (List.prefix_append _ _) with hc | hc
            · have h1 := hc.length_le
              rw [List.length_drop] at h1
              omega
            · exact hc0 i hi hiA hc
          rw [hBin, hAin]
          omega
        next => exact absurd hlit (by simp)
      | none =>
        obtain ⟨b, B', rfl⟩ : ∃ b B', B = b :: B' := by
          cases B with
          | nil => exact absurd rfl hB
          | cons x xs => exact ⟨x, xs, rfl⟩
        have hnA : ¬ A <+: (c :: rest) := litTry_eq_none_iff.mp h
        rw [scan_cons_skip (litSubst A (b :: B') hA) h]
        have hrl : rest.length ≤ n := by
          simp only [List.length_cons] at hsn
          omega
        have hAhead : ¬ A.isPrefixOf (c :: rest) = true := fun hp => hnA (isPre_iff.mp hp)
        have htr : ∀ u, u <:+ rest → ∀ j, 0 < j →
            (b :: B').drop j <+: scan (litSubst A (b :: B') hA) u →
            (b :: B').drop j <+: u := by
          intro u hu j hj hpre
          refine @transfer_drop _ _ rest ?_ u hu j hj hpre
          intro t o r _ hm
          have hlit : litTry A (b :: B') t = some (o, r) := hm
          rw [litTry] at hlit
          split at hlit
          next =>
            rw [Option.some.injEq, Prod.mk.injEq] at hlit
            obtain ⟨rfl, _⟩ := hlit
            exact ⟨Nat.le_refl _, fun j hj hjB => hc1 j hj hjB⟩
          next => exact absurd hlit (by simp)
        have hhead : (b :: B').isPrefixOf (c :: scan (litSubst A (b :: B') hA) rest) =
            (b :: B').isPrefixOf (c :: rest) := by
          rw [Bool.eq_iff_iff, isPre_iff, isPre_iff]
          constructor
          · intro hp
            obtain ⟨rfl, htl⟩ := List.cons_prefix_cons.mp hp
            refine List.cons_prefix_cons.mpr ⟨rfl, ?_⟩
            exact htr rest (List.suffix_refl _) 1 (by omega) htl
          · intro hp
            obtain ⟨rfl, htl⟩ := List.cons_prefix_cons.mp hp
            refine List.cons_prefix_cons.mpr ⟨rfl, ?_⟩
            obtain ⟨z, hz⟩ := htl
            have hcopy : ∀ k, k < B'.length →
                (litSubst A (b :: B') hA).tryAt (rest.drop k) = none := by
              intro k hk
              rw [litSubst_tryAt, litTry_eq_none_iff]
              intro hpre
              have hdrop : rest.drop k = B'.drop k ++ z := by
                rw [← hz, List.drop_append_of_le_length (Nat.le_of_lt hk)]
              rw [hdrop] at hpre
              have hBd : B'.drop k = (b :: B').drop (k + 1) := rfl
              have hlenB : k + 1 < (b :: B').length := by
                simp only [List.length_cons]
                omega
              rcases pre_or_pre hpre (List.prefix_append _ _) with hc | hc
              · rw [hBd] at hc
                exact (hc3 (k + 1) (Nat.succ_pos k) hlenB).1 hc
              · rw [hBd] at hc
                exact (hc3 (k + 1) (Nat.succ_pos k) hlenB).2 hc
            rw [scan_copy B'.length rest hcopy]
            have htake : rest.take B'.length = B' := by
              rw [← hz, List.take_left]
            rw [htake]
            exact ⟨scan (litSubst A (b :: B') hA) (rest.drop B'.length), rfl⟩
        have hAz : countOcc A (c :: rest) = countOcc A rest := by
          rw [countOcc, if_neg hAhead, Nat.zero_add]
        rw [countOcc, countOcc, hhead, ih rest hrl, hAz]
        omega

/-- Occurrence counts after a literal substitution `A → B` (plain-language
form of the two side equations). -/
theorem lit_count {A B : List Char} (hA : A ≠ []) (hB : B ≠ [])
    (hc0 : ∀ i, 0 < i → i < A.length → ¬ (A.drop i <+: A))
    (hc1 : ∀ i, 0 < i → i < B.length → ¬ (B.drop i <+: B))
    (hc2 : ∀ i, i < A.length → ¬ B <+: A.drop i ∧ ¬ (A.drop i <+: B))
    (hc3 : ∀ i, 0 < i → i < B.length → ¬ A <+: B.drop i ∧ ¬ (B.drop i <+: A))
    (s : List Char) :
    countOcc B (scan (litSubst A B hA) s) = countOcc B s + countOcc A s :=
  lit_countB_aux hA hB hc0 hc1 hc2 hc3 s.length s (Nat.le_refl _)

/-! ### End-of-line anchored substitution

`re.sub(pat + r'$', repl, flags=re.MULTILINE)` for a literal `pat` with no
newline: a match is `pat` immediately followed by a newline or by the end of
the text; `$` is zero width, so only `pat` is consumed. -/

/-- The zero-width `$` of MULTILINE mode: start of what remains is a newline,
or nothing remains. -/
def atLineEnd (t : List Char) : Bool :=
  match t with
  | [] => true
  | c :: _ => c == '\n'

def leTry (pat repl : List Char) (s : List Char) : Option (List Char × List Char) :=
  if pat.isPrefixOf s && atLineEnd (s.drop pat.length) then
    some (repl, s.drop pat.length)
  else none

def leSubst (pat repl : List Char) (hp : pat ≠ []) : SubstFn where
  tryAt := leTry pat repl
  consumes := by
    intro s o r h
    simp only [leTry] at h
    split at h
    next hc =>
      rw [Bool.and_eq_true, isPre_iff] at hc
      obtain ⟨t, rfl⟩ := hc.1
      rw [List.drop_left, Option.some.injEq, Prod.mk.injEq] at h
      obtain ⟨rfl, rfl⟩ := h
      exact ⟨pat, hp, rfl⟩
    next => exact Option.noConfusion h

theorem leSubst_tryAt (pat repl : List Char) (hp : pat ≠ []) (s : List Char) :
    (leSubst pat repl hp).tryAt s = leTry pat repl s := rfl

theorem leTry_eq_some_iff {pat repl s o r : List Char} :
    leTry pat repl s = some (o, r) ↔
      o = repl ∧ r = s.drop pat.length ∧ pat <+: s ∧
        atLineEnd (s.drop pat.length) = true := by
  simp only [leTry]
  split
  next hc =>
    rw [Bool.and_eq_true, isPre_iff] at hc
    simp only [Option.some.injEq, Prod.mk.injEq]
    constructor
    · rintro ⟨rfl, rfl⟩; exact ⟨rfl, rfl, hc.1, hc.2⟩
    · rintro ⟨rfl, rfl, _, _⟩; exact ⟨rfl, rfl⟩
  next hc =>
    constructor
    · intro hcontra; exact Option.noConfusion hcontra
    · rintro ⟨rfl, rfl, h1, h2⟩
      exact absurd (by rw [Bool.and_eq_true, isPre_iff]; exact ⟨h1, h2⟩) hc

theorem leTry_eq_none_iff {pat repl s : List Char} :
    leTry pat repl s = none ↔
      ¬ (pat <+: s ∧ atLineEnd (s.drop pat.length) = true) := by
  simp only [leTry]
  split
  next hc =>
    rw [Bool.and_eq_true, isPre_iff] at hc
    simp [hc.1, hc.2]
  next hc =>
    simp only [true_iff]
    intro hcc
    exact hc (by rw [Bool.and_eq_true, isPre_iff]; exact ⟨hcc.1, hcc.2⟩)

/-- A line-end match of `pat` is exactly an occurrence of `pat ++ "\n"` or the
text ending in `pat`. -/
theorem leSubst_noMatchAll_iff {pat repl : List Char} (hp : pat ≠ [])
    (t : List Char) :
    NoMatchAll (leSubst pat repl hp) t ↔
      countOcc (pat ++ ['\n']) t = 0 ∧ ¬ pat <:+ t := by
  have hPn : pat ++ ['\n'] ≠ [] := by simp
  constructor
  · intro h
    constructor
    · rw [countOcc_eq_zero_iff hPn]
      intro u hu hpre
      obtain ⟨z, hz⟩ := hpre
      rw [List.append_assoc] at hz
      have h1 : pat <+: u := ⟨['\n'] ++ z, hz⟩
      have h2 : u.drop pat.length = ['\n'] ++ z := by rw [← hz, List.drop_left]
      have := h u hu
      rw [leSubst_tryAt, leTry_eq_none_iff] at this
      exact this ⟨h1, by rw [h2]; rfl⟩
    · intro hsuf
      have := h pat hsuf
      rw [leSubst_tryAt, leTry_eq_none_iff] at this
      exact this ⟨List.prefix_refl pat, by
        rw [List.drop_eq_nil_of_le (Nat.le_refl _)]; rfl⟩
  · rintro ⟨hz, hsuf⟩ u hu
    rw [leSubst_tryAt, leTry_eq_none_iff]
    rintro ⟨hpre, hend⟩
    obtain ⟨z, rfl⟩ := hpre
    rw [List.drop_left] at hend
    cases z with
    | nil =>
      exact hsuf (by simpa using hu)
    | cons zc z' =>
      have : zc = '\n' := by simpa [atLineEnd] using hend
      subst this
      exact (countOcc_eq_zero_iff hPn t).mp hz _ hu
        ⟨z', by rw [List.append_assoc]; rfl⟩

/-- After the line-end substitution, the text does not end in `pat`. -/
theorem le_scan_not_end {pat repl : List Char} (hp : pat ≠ [])
    (hlen : pat.length ≤ repl.length)
    (htake : ∀ k, 0 < k → k ≤ pat.length → ¬ (pat.take k <:+ repl)) :
    ∀ n s, s.length ≤ n → ¬ pat <:+ scan (leSubst pat repl hp) s := by
  intro n
  induction n with
  | zero =>
    intro s hsn hsuf
    have : s = [] := List.eq_nil_of_length_eq_zero (Nat.le_zero.mp hsn)
    subst this
    rw [scan_nil] at hsuf
    exact hp (List.suffix_nil.mp hsuf)
  | succ n ih =>
    intro s hsn hsuf
    cases s with
    | nil =>
      rw [scan_nil] at hsuf
      exact hp (List.suffix_nil.mp hsuf)
    | cons c rest =>
      cases h : (leSubst pat repl hp).tryAt (c :: rest) with
      | some pr =>
        obtain ⟨o, r⟩ := pr
        rw [scan_cons_match _ h] at hsuf
        have hsome := h
        rw [leSubst_tryAt, leTry_eq_some_iff] at hsome
        obtain ⟨ho, -, -, -⟩ := hsome
        rw [ho] at hsuf
        have hrl : r.length ≤ n := by
          have := (leSubst pat repl hp).shrink h
          simp only [List.length_cons] at hsn this
          omega
        by_cases hl : pat.length ≤ (scan (leSubst pat repl hp) r).length
        · exact ih _ hrl
            (List.suffix_of_suffix_length_le hsuf (List.suffix_append _ _) hl)
        · push_neg at hl
          have hw : scan (leSubst pat repl hp) r <:+ pat :=
            List.suffix_of_suffix_length_le (List.suffix_append _ _) hsuf (Nat.le_of_lt hl)
          obtain ⟨u, hu⟩ := hw
          have hsuf2 : u ++ scan (leSubst pat repl hp) r <:+
              repl ++ scan (leSubst pat repl hp) r := by
            rw [hu]; exact hsuf
          have huo : u <:+ repl := suffix_append_cancel hsuf2
          have hulen : u.length + (scan (leSubst pat repl hp) r).length = pat.length := by
            have := congrArg List.length hu
            simpa [List.length_append] using this
          have hut : u = pat.take u.length := by
            have h2 : pat.take u.length = (u ++ scan (leSubst pat repl hp) r).take u.length := by
              rw [hu]
            rw [List.take_left] at h2
            exact h2.symm
          exact htake u.length (by omega) (by omega) (hut ▸ huo)
      | none =>
        rw [scan_cons_skip _ h] at hsuf
        rcases List.suffix_cons_iff.mp hsuf with heq | hsuf'
        · rcases scan_first (leSubst pat repl hp) rest with
            ⟨hnm, hsc, _⟩ | ⟨m, o, r, hmr, _, _, hsc, _⟩
          · rw [hsc] at heq
            have hnone := h
            rw [leSubst_tryAt, leTry_eq_none_iff] at hnone
            refine hnone ⟨heq ▸ List.prefix_refl _, ?_⟩
            rw [heq, List.drop_eq_nil_of_le (Nat.le_refl _)]
            rfl
          · have horepl : o = repl := by
              have := hmr
              rw [leSubst_tryAt, leTry_eq_some_iff] at this
              exact this.1
            have h1 : pat.length = 1 + (scan (leSubst pat repl hp) rest).length := by
              have := congrArg List.length heq
              simpa [List.length_cons, Nat.add_comm] using this
            have h3 : (scan (leSubst pat repl hp) rest).length =
                (rest.take m).length + (o.length + (scan (leSubst pat repl hp) r).length) := by
              rw [hsc]
              simp [List.length_append]
            rw [horepl] at h3
            omega
        · exact ih rest (by simp only [List.length_cons] at hsn; omega) hsuf'

/-- No line-end match of `pat` survives its own substitution. -/
theorem leSubst_noRematch {pat repl : List Char} (hp : pat ≠ [])
    (hlen : pat.length ≤ repl.length)
    (htake : ∀ k, 0 < k → k ≤ pat.length → ¬ (pat.take k <:+ repl))
    (hblock : PatBlockOk (pat ++ ['\n']) repl)
    (s : List Char) :
    NoMatchAll (leSubst pat repl hp) (scan (leSubst pat repl hp) s) := by
  rw [leSubst_noMatchAll_iff]
  constructor
  · refine scan_countOcc_zero (by simp) ?_ ?_
    · intro t _ hnone hpre
      rw [leSubst_tryAt, leTry_eq_none_iff] at hnone
      obtain ⟨z, hz⟩ := hpre
      rw [List.append_assoc] at hz
      refine hnone ⟨⟨['\n'] ++ z, hz⟩, ?_⟩
      rw [← hz, List.drop_left]
      rfl
    · intro t o r _ hm
      rw [leSubst_tryAt, leTry_eq_some_iff] at hm
      rw [hm.1]
      exact hblock
  · exact le_scan_not_end hp hlen htake s.length s (Nat.le_refl _)

/-- A text without `pat` as a substring has no line-end match either. -/
theorem leSubst_noMatchAll_of_noSub {pat repl : List Char} (hp : pat ≠ [])
    {t : List Char} (h : containsSub pat t = false) :
    NoMatchAll (leSubst pat repl hp) t := by
  intro u hu
  rw [leSubst_tryAt, leTry_eq_none_iff]
  rintro ⟨hpre, _⟩
  exact (containsSub_eq_false_iff t).mp h u hu hpre

/-! ### Splicing a fixed block into a text (the setup-step insertions) -/

/-- Inserting a block `P` that cannot host or span an occurrence of `Q`
creates no occurrence of `Q`. -/
theorem insert_countOcc_zero {Q P : List Char} (hQ : Q ≠ [])
    (hQlen : Q.length ≤ P.length)
    (h1 : ∀ k, k < P.length → ¬ Q <+: P.drop k ∧ ¬ (P.drop k <+: Q))
    (h2 : ∀ j, 0 < j → j < Q.length → ¬ (Q.drop j <+: P)) :
    ∀ x z, countOcc Q (x ++ z) = 0 → countOcc Q (x ++ (P ++ z)) = 0 := by
  intro x
  induction x with
  | nil =>
    intro z h
    simp only [List.nil_append] at h ⊢
    rw [countOcc_append_of_no_start]
    · exact h
    · intro i hi hpre
      rcases pre_or_pre hpre (List.prefix_append _ _) with hc | hc
      · exact (h1 i hi).1 hc
      · exact (h1 i hi).2 hc
  | cons c x' ih =>
    intro z h
    have hz : countOcc Q (x' ++ z) = 0 ∧ ¬ Q <+: ((c :: x') ++ z) := by
      rw [countOcc_eq_zero_iff hQ] at h
      constructor
      · rw [countOcc_eq_zero_iff hQ]
        intro t ht
        exact h t (ht.trans (by simpa using List.suffix_cons c (x' ++ z)))
      · exact h _ (List.suffix_refl _)
    show countOcc Q (c :: (x' ++ (P ++ z))) = 0
    rw [countOcc]
    have hhead : ¬ Q.isPrefixOf (c :: (x' ++ (P ++ z))) = true := by
      intro hb
      have hpre := isPre_iff.mp hb
      have hcx : (c :: x') ++ (P ++ z) = c :: (x' ++ (P ++ z)) := by simp
      rw [← hcx] at hpre
      rcases pre_or_pre hpre (List.prefix_append (c :: x') (P ++ z)) with hc | hc
      · exact hz.2 (hc.trans (List.prefix_append (c :: x') z))
      · -- the prefix (c :: x') of Q ends, Q continues into P ++ z
        by_cases hjQ : (c :: x').length < Q.length
        · have hdrop : Q.drop (c :: x').length <+: P ++ z := pre_drop_of_pre hc hpre
          rcases pre_or_pre hdrop (List.prefix_append P z) with hd | hd
          · exact h2 _ (by simp) hjQ hd
          · have hl1 := hd.length_le
            rw [List.length_drop] at hl1
            have hb : 1 ≤ (c :: x').length := by simp
            omega
        · push_neg at hjQ
          have heq : Q = c :: x' :=
            (List.IsPrefix.eq_of_length hc
              (by have := hc.length_le; omega)).symm
          exact hz.2 (heq ▸ List.prefix_append (c :: x') z)
    rw [if_neg hhead, Nat.zero_add]
    exact ih z hz.1

/-- Inserting a block `P` whose suffixes do not end a copy of `pat` keeps the
property "the text does not end with `pat`". -/
theorem insert_not_end {pat P : List Char} (hpat : pat ≠ [])
    (hPlen : pat.length ≤ P.length)
    (htake : ∀ k, 0 < k → k ≤ pat.length → ¬ (pat.take k <:+ P)) :
    ∀ x z, ¬ pat <:+ (x ++ z) → ¬ pat <:+ (x ++ (P ++ z)) := by
  intro x z hno hsuf
  by_cases hl : pat.length ≤ z.length
  · have hpz : pat <:+ z :=
      List.suffix_of_suffix_length_le hsuf
        ((List.suffix_append P z).trans (List.suffix_append x (P ++ z))) hl
    exact hno (hpz.trans (List.suffix_append x z))
  · push_neg at hl
    have hzp : z <:+ pat :=
      List.suffix_of_suffix_length_le
        ((List.suffix_append P z).trans (List.suffix_append x (P ++ z))) hsuf
        (Nat.le_of_lt hl)
    obtain ⟨u, hu⟩ := hzp
    have hxPz : x ++ (P ++ z) = (x ++ P) ++ z := by simp
    have hsuf2 : u ++ z <:+ (x ++ P) ++ z := by
      rw [hu, ← hxPz]; exact hsuf
    have huxP : u <:+ x ++ P := suffix_append_cancel hsuf2
    have hulen : u.length + z.length = pat.length := by
      have := congrArg List.length hu
      simpa [List.length_append] using this
    have huP : u <:+ P :=
      List.suffix_of_suffix_length_le huxP (List.suffix_append x P) (by omega)
    have hut : u = pat.take u.length := by
      have h2 : pat.take u.length = (u ++ z).take u.length := by rw [hu]
      rw [List.take_left] at h2
      exact h2.symm
    exact htake u.length (by omega) (by omega) (hut ▸ huP)

/-! ### Small helpers for character-level reasoning -/

theorem head_ne_not_pre {a c : Char} {l l' : List Char} (h : a ≠ c) :
    ¬ (a :: l) <+: (c :: l') :=
  fun hp => h (List.cons_prefix_cons.mp hp).1

theorem drop_cons_getD {l : List Char} {i : Nat} (h : i < l.length) :
    l.drop i = l.getD i ' ' :: l.drop (i + 1) := by
  rw [List.getD_eq_getElem l ' ' h]
  exact List.drop_eq_getElem_cons h

theorem getD_mem {l : List Char} {i : Nat} (h : i < l.length) :
    l.getD i ' ' ∈ l := by
  rw [List.getD_eq_getElem l ' ' h]
  exact List.getElem_mem h

theorem pyIsSpace_cases {c : Char} (h : pyIsSpace c = true) :
    c = ' ' ∨ c = '\t' ∨ c = '\n' ∨ c = '\r' ∨ c = '\x0b' ∨ c = '\x0c' := by
  simp only [pyIsSpace, Bool.or_eq_true, decide_eq_true_eq] at h
  tauto

theorem space_ne_p {c : Char} (h : pyIsSpace c = true) : c ≠ 'p' := by
  rcases pyIsSpace_cases h with rfl | rfl | rfl | rfl | rfl | rfl <;> decide

theorem space_ne_u {c : Char} (h : pyIsSpace c = true) : c ≠ 'u' := by
  rcases pyIsSpace_cases h with rfl | rfl | rfl | rfl | rfl | rfl <;> decide

theorem space_not_digit {c : Char} (h : pyIsSpace c = true) :
    c.isDigit = false := by
  rcases pyIsSpace_cases h with rfl | rfl | rfl | rfl | rfl | rfl <;> decide

theorem digit_ne_p {c : Char} (h : c.isDigit = true) : c ≠ 'p' := by
  intro he
  subst he
  revert h
  decide

theorem digit_not_space {c : Char} (h : c.isDigit = true) :
    pyIsSpace c = false := by
  rw [Char.isDigit] at h
  rw [Bool.and_eq_true, decide_eq_true_eq, decide_eq_true_eq] at h
  by_contra hs
  rw [Bool.not_eq_false] at hs
  rcases pyIsSpace_cases hs with rfl | rfl | rfl | rfl | rfl | rfl <;>
    simp_all <;> omega

/-- `takeWhile` and `dropWhile` on a run of the class followed by a character
outside the class: the greedy repetitions in the scripts' patterns are always
delimited this way, which is what makes the regex matchers deterministic. -/
theorem takeWhile_append_cons (p : Char → Bool) (d : List Char) (c : Char)
    (r : List Char) (hd : ∀ x ∈ d, p x = true) (hc : p c = false) :
    (d ++ c :: r).takeWhile p = d ∧ (d ++ c :: r).dropWhile p = c :: r := by
  induction d with
  | nil =>
    constructor
    · simp [List.takeWhile_cons, hc]
    · simp [List.dropWhile_cons, hc]
  | cons x d' ih =>
    have hx : p x = true := hd x (by simp)
    obtain ⟨ih1, ih2⟩ := ih (fun y hy => hd y (by simp [hy]))
    constructor
    · simp [List.takeWhile_cons, hx, ih1]
    · simp [List.dropWhile_cons, hx, ih2]

/-! ### The contextual version-substitution rules

`fix-all-pnpm-workflows.py` rule 2 is
`re.sub(r'(pnpm/action-setup@v\d+\s+with:\s+version:)\s*9', r'\1 10', ...)`;
`update-pnpm-version.py` is
`re.sub(r'(uses: pnpm/action-setup@v2\s+with:\s+version:)\s*8', r'\1 10', ...)`.
Each greedy class run (`\d+`, `\s+`, `\s*`) is followed by a literal whose
first character is outside the class, so greedy matching is maximal munch. -/

def anchorL : List Char := "pnpm/action-setup@v".toList

def anchor8 : List Char := "uses: pnpm/action-setup@v2".toList

def withL : List Char := "with:".toList

def verL : List Char := "version:".toList

def tenL : List Char := " 10".toList

/-- The shared `\s+with:\s+version:\s*<target>` part of both patterns.
Returns the group-1 text from the first `\s+` through `version:`, and the
rest of the input after the consumed target digit. -/
def midTry (target : Char) (s1 : List Char) : Option (List Char × List Char) :=
  let w1 := s1.takeWhile pyIsSpace
  if w1.isEmpty then none
  else
    let s2 := s1.dropWhile pyIsSpace
    if withL.isPrefixOf s2 then
      let s3 := s2.drop withL.length
      let w2 := s3.takeWhile pyIsSpace
      if w2.isEmpty then none
      else
        let s4 := s3.dropWhile pyIsSpace
        if verL.isPrefixOf s4 then
          let s5 := s4.drop verL.length
          match s5.dropWhile pyIsSpace with
          | c :: rest => if c == target then some (w1 ++ withL ++ w2 ++ verL, rest) else none
          | [] => none
        else none
    else none

/-- Matcher for fix-all rule 2 (`pnpm/action-setup@v\d+ ... version: 9`);
on success returns the replacement text `\1 10` to emit and the rest. -/
def pat2Try (s : List Char) : Option (List Char × List Char) :=
  if anchorL.isPrefixOf s then
    let s1 := s.drop anchorL.length
    let d := s1.takeWhile Char.isDigit
    if d.isEmpty then none
    else
      match midTry '9' (s1.dropWhile Char.isDigit) with
      | some (mid, rest) => some (anchorL ++ d ++ mid ++ tenL, rest)
      | none => none
  else none

/-- Matcher for the update-pnpm-version rule
(`uses: pnpm/action-setup@v2 ... version: 8`). -/
def pat8Try (s : List Char) : Option (List Char × List Char) :=
  if anchor8.isPrefixOf s then
    match midTry '8' (s.drop anchor8.length) with
    | some (mid, rest) => some (anchor8 ++ mid ++ tenL, rest)
    | none => none
  else none

theorem dropWhile_head_false {p : Char → Bool} {l : List Char} {c : Char}
    {r : List Char} (h : l.dropWhile p = c :: r) : p c = false := by
  induction l with
  | nil => simp at h
  | cons a l ih =>
    rw [List.dropWhile_cons] at h
    split at h
    · exact ih h
    next hpa =>
      injection h with h1 _
      subst h1
      cases hb : p a with
      | false => rfl
      | true => exact absurd hb hpa

/-- Structure of a successful `midTry`. -/
theorem midTry_eq_some {target : Char} {s1 mid rest : List Char}
    (h : midTry target s1 = some (mid, rest)) :
    ∃ w1 w2 z, w1 ≠ [] ∧ (∀ c ∈ w1, pyIsSpace c = true) ∧
      w2 ≠ [] ∧ (∀ c ∈ w2, pyIsSpace c = true) ∧ (∀ c ∈ z, pyIsSpace c = true) ∧
      mid = w1 ++ withL ++ w2 ++ verL ∧
      s1 = w1 ++ withL ++ w2 ++ verL ++ z ++ target :: rest := by
  simp only [midTry] at h
  split at h
  next => exact Option.noConfusion h
  next hw1 =>
    split at h
    case' isFalse => exact Option.noConfusion h
    next hwith =>
      split at h
      next => exact Option.noConfusion h
      next hw2 =>
        split at h
        case' isFalse => exact Option.noConfusion h
        next hver =>
          split at h
          case' h_2 => exact Option.noConfusion h
          next c rest' hdw =>
            split at h
            case' isFalse => exact Option.noConfusion h
            next hct =>
              rw [Option.some.injEq, Prod.mk.injEq] at h
              obtain ⟨hmid, hrest⟩ := h
              rw [beq_iff_eq] at hct
              subst hct
              -- reconstruct s1 from the takeWhile/dropWhile chain
              set w1 := s1.takeWhile pyIsSpace with hw1d
              set s2 := s1.dropWhile pyIsSpace with hs2d
              obtain ⟨t2, ht2⟩ := isPre_iff.mp hwith
              set s3 := s2.drop withL.length with hs3d
              have hs3 : s3 = t2 := by rw [hs3d, ← ht2, List.drop_left]
              set w2 := s3.takeWhile pyIsSpace with hw2d
              set s4 := s3.dropWhile pyIsSpace with hs4d
              obtain ⟨t4, ht4⟩ := isPre_iff.mp hver
              set s5 := s4.drop verL.length with hs5d
              have hs5 : s5 = t4 := by rw [hs5d, ← ht4, List.drop_left]
              refine ⟨w1, w2, s5.takeWhile pyIsSpace, ?_, ?_, ?_, ?_, ?_, ?_, ?_⟩
              · intro hn; exact hw1 (List.isEmpty_iff.mpr hn)
              · intro c hc; exact List.mem_takeWhile_imp hc
              · intro hn; exact hw2 (List.isEmpty_iff.mpr hn)
              · intro c hc; exact List.mem_takeWhile_imp hc
              · intro c hc; exact List.mem_takeWhile_imp hc
              · exact hmid.symm
              · have e1 : s1 = w1 ++ s2 := (List.takeWhile_append_dropWhile _ _).symm
                have e2 : s2 = withL ++ s3 := by rw [hs3, ht2]
                have e3 : s3 = w2 ++ s4 := (List.takeWhile_append_dropWhile _ _).symm
                have e4 : s4 = verL ++ s5 := by rw [hs5, ht4]
                have e5 : s5 = s5.takeWhile pyIsSpace ++ c :: rest := by
                  have h5 := (List.takeWhile_append_dropWhile pyIsSpace s5).symm
                  rw [hdw, hrest] at h5
                  exact h5
                rw [e1, e2, e3, e4, e5]
                simp only [List.append_assoc]
                have hcf : pyIsSpace c = false := dropWhile_head_false hdw
                have hta := takeWhile_append_cons pyIsSpace
                  (s5.takeWhile pyIsSpace) c rest
                  (fun x hx => List.mem_takeWhile_imp hx) hcf
                rw [hta.1]

/-- `midTry` on explicitly structured input (locality of the matcher): the
result depends only on whether the character after the whitespace run is the
target digit. -/
theorem midTry_local_gen {target c0 : Char} {w1 w2 z rest : List Char}
    (hw1 : w1 ≠ []) (hw1s : ∀ c ∈ w1, pyIsSpace c = true)
    (hw2 : w2 ≠ []) (hw2s : ∀ c ∈ w2, pyIsSpace c = true)
    (hzs : ∀ c ∈ z, pyIsSpace c = true)
    (htarget : pyIsSpace c0 = false) :
    midTry target (w1 ++ withL ++ w2 ++ verL ++ z ++ c0 :: rest) =
      (if c0 == target then some (w1 ++ withL ++ w2 ++ verL, rest) else none) := by
  have hwch : pyIsSpace 'w' = false := by decide
  have hvch : pyIsSpace 'v' = false := by decide
  have e1 : w1 ++ withL ++ w2 ++ verL ++ z ++ c0 :: rest =
      w1 ++ 'w' :: ("ith:".toList ++ (w2 ++ verL ++ z ++ c0 :: rest)) := by
    simp [withL, List.append_assoc]
  have h1 := takeWhile_append_cons pyIsSpace w1 'w'
    ("ith:".toList ++ (w2 ++ verL ++ z ++ c0 :: rest)) hw1s hwch
  have e2 : w2 ++ verL ++ z ++ c0 :: rest =
      w2 ++ 'v' :: ("ersion:".toList ++ (z ++ c0 :: rest)) := by
    simp [verL, List.append_assoc]
  have h2 := takeWhile_append_cons pyIsSpace w2 'v'
    ("ersion:".toList ++ (z ++ c0 :: rest)) hw2s hvch
  have h3 := takeWhile_append_cons pyIsSpace z c0 rest hzs htarget
  simp only [midTry]
  rw [e1, h1.1, h1.2]
  have hw1e : w1.isEmpty = false := by
    cases w1 with
    | nil => exact absurd rfl hw1
    | cons a l => rfl
  rw [hw1e]
  simp only [Bool.false_eq_true, if_false]
  have hwp : withL.isPrefixOf ('w' :: ("ith:".toList ++ (w2 ++ verL ++ z ++ c0 :: rest))) = true := by
    rw [isPre_iff]
    exact ⟨w2 ++ verL ++ z ++ c0 :: rest, by simp [withL]⟩
  rw [hwp]
  simp only [if_true]
  have hdw : ('w' :: ("ith:".toList ++ (w2 ++ verL ++ z ++ c0 :: rest))).drop withL.length =
      w2 ++ verL ++ z ++ c0 :: rest := by
    have : 'w' :: ("ith:".toList ++ (w2 ++ verL ++ z ++ c0 :: rest)) =
        withL ++ (w2 ++ verL ++ z ++ c0 :: rest) := by simp [withL]
    rw [this, List.drop_left]
  rw [hdw, e2, h2.1, h2.2]
  have hw2e : w2.isEmpty = false := by
    cases w2 with
    | nil => exact absurd rfl hw2
    | cons a l => rfl
  rw [hw2e]
  simp only [Bool.false_eq_true, if_false]
  have hvp : verL.isPrefixOf ('v' :: ("ersion:".toList ++ (z ++ c0 :: rest))) = true := by
    rw [isPre_iff]
    exact ⟨z ++ c0 :: rest, by simp [verL]⟩
  rw [hvp]
  simp only [if_true]
  have hdv : ('v' :: ("ersion:".toList ++ (z ++ c0 :: rest))).drop verL.length =
      z ++ c0 :: rest := by
    have : 'v' :: ("ersion:".toList ++ (z ++ c0 :: rest)) =
        verL ++ (z ++ c0 :: rest) := by simp [verL]
    rw [this, List.drop_left]
  rw [hdv, h3.2]

theorem midTry_local {target : Char} {w1 w2 z rest : List Char}
    (hw1 : w1 ≠ []) (hw1s : ∀ c ∈ w1, pyIsSpace c = true)
    (hw2 : w2 ≠ []) (hw2s : ∀ c ∈ w2, pyIsSpace c = true)
    (hzs : ∀ c ∈ z, pyIsSpace c = true)
    (htarget : pyIsSpace target = false) :
    midTry target (w1 ++ withL ++ w2 ++ verL ++ z ++ target :: rest) =
      some (w1 ++ withL ++ w2 ++ verL, rest) := by
  rw [midTry_local_gen hw1 hw1s hw2 hw2s hzs htarget]
  simp

/-- Group 1 of fix-all rule 2: anchor, digits, whitespace, `with:`,
whitespace, `version:`. -/
def g2core (d w1 w2 : List Char) : List Char :=
  anchorL ++ d ++ w1 ++ withL ++ w2 ++ verL

/-- Group 1 of the update-pnpm-version rule. -/
def g8core (w1 w2 : List Char) : List Char :=
  anchor8 ++ w1 ++ withL ++ w2 ++ verL

/-- Structure of a successful fix-all rule 2 match. -/
theorem pat2Try_eq_some {s o rest : List Char} (h : pat2Try s = some (o, rest)) :
    ∃ d w1 w2 z, d ≠ [] ∧ (∀ c ∈ d, c.isDigit = true) ∧
      w1 ≠ [] ∧ (∀ c ∈ w1, pyIsSpace c = true) ∧
      w2 ≠ [] ∧ (∀ c ∈ w2, pyIsSpace c = true) ∧ (∀ c ∈ z, pyIsSpace c = true) ∧
      o = g2core d w1 w2 ++ tenL ∧
      s = g2core d w1 w2 ++ z ++ '9' :: rest := by
  simp only [pat2Try] at h
  split at h
  case' isFalse => exact Option.noConfusion h
  next hanch =>
    split at h
    next => exact Option.noConfusion h
    next hde =>
      split at h
      case' h_2 => exact Option.noConfusion h
      next mid rest' hmid =>
        rw [Option.some.injEq, Prod.mk.injEq] at h
        obtain ⟨ho, hrest⟩ := h
        subst hrest
        obtain ⟨t, ht⟩ := isPre_iff.mp hanch
        have hs1 : s.drop anchorL.length = t := by rw [← ht, List.drop_left]
        rw [hs1] at hde hmid
        obtain ⟨w1, w2, z, hw1, hw1s, hw2, hw2s, hzs, hmideq, hdrop⟩ :=
          midTry_eq_some hmid
        refine ⟨t.takeWhile Char.isDigit, w1, w2, z, ?_, ?_, hw1, hw1s, hw2, hw2s, hzs, ?_, ?_⟩
        · intro hn; exact hde (List.isEmpty_iff.mpr hn)
        · intro c hc; exact List.mem_takeWhile_imp hc
        · rw [← ho, hs1, hmideq, g2core]
          simp [List.append_assoc]
        · have et : t = t.takeWhile Char.isDigit ++ t.dropWhile Char.isDigit :=
            (List.takeWhile_append_dropWhile _ _).symm
          rw [← ht, et, hdrop, g2core]
          simp only [List.append_assoc]
          obtain ⟨wc, w1', rfl⟩ : ∃ wc w1', w1 = wc :: w1' := by
            cases w1 with
            | nil => exact absurd rfl hw1
            | cons a l => exact ⟨a, l, rfl⟩
          have hnd := space_not_digit (hw1s wc (by simp))
          rw [List.cons_append,
            (takeWhile_append_cons _ _ _ _
              (fun c hc => List.mem_takeWhile_imp hc) hnd).1]

/-- Structure of a successful update-pnpm-version match. -/
theorem pat8Try_eq_some {s o rest : List Char} (h : pat8Try s = some (o, rest)) :
    ∃ w1 w2 z, w1 ≠ [] ∧ (∀ c ∈ w1, pyIsSpace c = true) ∧
      w2 ≠ [] ∧ (∀ c ∈ w2, pyIsSpace c = true) ∧ (∀ c ∈ z, pyIsSpace c = true) ∧
      o = g8core w1 w2 ++ tenL ∧
      s = g8core w1 w2 ++ z ++ '8' :: rest := by
  simp only [pat8Try] at h
  split at h
  case' isFalse => exact Option.noConfusion h
  next hanch =>
    split at h
    case' h_2 => exact Option.noConfusion h
    next mid rest' hmid =>
      rw [Option.some.injEq, Prod.mk.injEq] at h
      obtain ⟨ho, hrest⟩ := h
      subst hrest
      obtain ⟨t, ht⟩ := isPre_iff.mp hanch
      have hs1 : s.drop anchor8.length = t := by rw [← ht, List.drop_left]
      rw [hs1] at hmid
      obtain ⟨w1, w2, z, hw1, hw1s, hw2, hw2s, hzs, hmideq, hdrop⟩ :=
        midTry_eq_some hmid
      refine ⟨w1, w2, z, hw1, hw1s, hw2, hw2s, hzs, ?_, ?_⟩
      · rw [← ho, hmideq, g8core]
        simp [List.append_assoc]
      · rw [← ht, hdrop, g8core]
        simp [List.append_assoc]

/-- fix-all rule 2 on explicitly structured input: the result depends only on
whether the first character after the whitespace run following `version:` is
`9`. -/
theorem pat2Try_local_gen {d w1 w2 z rest : List Char} {c0 : Char}
    (hd : d ≠ []) (hdd : ∀ c ∈ d, c.isDigit = true)
    (hw1 : w1 ≠ []) (hw1s : ∀ c ∈ w1, pyIsSpace c = true)
    (hw2 : w2 ≠ []) (hw2s : ∀ c ∈ w2, pyIsSpace c = true)
    (hzs : ∀ c ∈ z, pyIsSpace c = true) (hc0 : pyIsSpace c0 = false) :
    pat2Try (g2core d w1 w2 ++ z ++ c0 :: rest) =
      (if c0 == '9' then some (g2core d w1 w2 ++ tenL, rest) else none) := by
  obtain ⟨wc, w1', rfl⟩ : ∃ wc w1', w1 = wc :: w1' := by
    cases w1 with
    | nil => exact absurd rfl hw1
    | cons a l => exact ⟨a, l, rfl⟩
  have hwc : pyIsSpace wc = true := hw1s wc (by simp)
  have e0 : g2core d (wc :: w1') w2 ++ z ++ c0 :: rest =
      anchorL ++ (d ++ (wc :: (w1' ++ withL ++ w2 ++ verL ++ z ++ c0 :: rest))) := by
    rw [g2core]
    simp [List.append_assoc]
  rw [e0]
  simp only [pat2Try]
  have hanch : anchorL.isPrefixOf
      (anchorL ++ (d ++ (wc :: (w1' ++ withL ++ w2 ++ verL ++ z ++ c0 :: rest)))) = true :=
    isPre_iff.mpr (List.prefix_append _ _)
  rw [hanch]
  simp only [if_true, List.drop_left]
  have htd := takeWhile_append_cons Char.isDigit d wc
    (w1' ++ withL ++ w2 ++ verL ++ z ++ c0 :: rest) hdd
    (space_not_digit hwc)
  rw [htd.1, htd.2]
  have hde : d.isEmpty = false := by
    cases d with
    | nil => exact absurd rfl hd
    | cons a l => rfl
  rw [hde]
  simp only [Bool.false_eq_true, if_false]
  have hml : midTry '9' ((wc :: w1') ++ withL ++ w2 ++ verL ++ z ++ c0 :: rest) =
      (if c0 == '9' then some ((wc :: w1') ++ withL ++ w2 ++ verL, rest) else none) :=
    midTry_local_gen hw1 hw1s hw2 hw2s hzs hc0
  have e1 : wc :: (w1' ++ withL ++ w2 ++ verL ++ z ++ c0 :: rest) =
      (wc :: w1') ++ withL ++ w2 ++ verL ++ z ++ c0 :: rest := by
    simp [List.append_assoc]
  rw [e1, hml]
  cases hbc : (c0 == '9') with
  | true =>
    simp only [if_true]
    rw [g2core]
    simp [List.append_assoc]
  | false =>
    simp only [Bool.false_eq_true, if_false]

theorem pat2Try_local {d w1 w2 z rest : List Char}
    (hd : d ≠ []) (hdd : ∀ c ∈ d, c.isDigit = true)
    (hw1 : w1 ≠ []) (hw1s : ∀ c ∈ w1, pyIsSpace c = true)
    (hw2 : w2 ≠ []) (hw2s : ∀ c ∈ w2, pyIsSpace c = true)
    (hzs : ∀ c ∈ z, pyIsSpace c = true) :
    pat2Try (g2core d w1 w2 ++ z ++ '9' :: rest) =
      some (g2core d w1 w2 ++ tenL, rest) := by
  rw [pat2Try_local_gen hd hdd hw1 hw1s hw2 hw2s hzs (by decide)]
  simp

def fPat2 : SubstFn where
  tryAt := pat2Try
  consumes := by
    intro s o r h
    obtain ⟨d, w1, w2, z, _, _, _, _, _, _, _, _, hs⟩ := pat2Try_eq_some h
    refine ⟨g2core d w1 w2 ++ z ++ ['9'], ?_, ?_⟩
    · simp [g2core, anchorL]
    · rw [hs]
      simp [List.append_assoc]

def fPat8 : SubstFn where
  tryAt := pat8Try
  consumes := by
    intro s o r h
    obtain ⟨w1, w2, z, _, _, _, _, _, _, hs⟩ := pat8Try_eq_some h
    refine ⟨g8core w1 w2 ++ z ++ ['8'], ?_, ?_⟩
    · simp [g8core, anchor8]
    · rw [hs]
      simp [List.append_assoc]

/-! ### No match of fix-all rule 2 survives its own substitution -/

theorem drop_append_ge {x y : List Char} {i : Nat} (h : x.length ≤ i) :
    (x ++ y).drop i = y.drop (i - x.length) := by
  obtain ⟨k, rfl⟩ : ∃ k, i = x.length + k := ⟨i - x.length, by omega⟩
  rw [List.drop_append]
  congr 1
  omega

theorem pat2Try_eq_none_of_anchor {x : List Char} (h : ¬ anchorL <+: x) :
    pat2Try x = none := by
  have hb : anchorL.isPrefixOf x = false := by
    rw [Bool.eq_false_iff]
    intro hbb
    exact h (isPre_iff.mp hbb)
  simp [pat2Try, hb]

/-- No character after the anchor of a rule 2 match (or of its replacement) is
`p`, the first character of the anchor. -/
theorem tail_ne_p {d w1 w2 tail : List Char}
    (hdd : ∀ c ∈ d, c.isDigit = true)
    (hw1s : ∀ c ∈ w1, pyIsSpace c = true)
    (hw2s : ∀ c ∈ w2, pyIsSpace c = true)
    (htail : ∀ c ∈ tail, c ≠ 'p') :
    ∀ c ∈ d ++ (w1 ++ (withL ++ (w2 ++ (verL ++ tail)))), c ≠ 'p' := by
  intro c hc
  simp only [List.mem_append] at hc
  have hwith : ∀ x ∈ withL, x ≠ 'p' := by decide
  have hver : ∀ x ∈ verL, x ≠ 'p' := by decide
  rcases hc with hc | hc | hc | hc | hc | hc
  · exact digit_ne_p (hdd c hc)
  · exact space_ne_p (hw1s c hc)
  · exact hwith c hc
  · exact space_ne_p (hw2s c hc)
  · exact hver c hc
  · exact htail c hc

theorem anchor_mismatch_drop :
    ∀ i, i < anchorL.length → 0 < i → mismatchB anchorL (anchorL.drop i) = true := by
  decide

theorem anchor_head : anchorL = 'p' :: "npm/action-setup@v".toList := by decide

/-- At no offset of the replacement block of a fix-all rule 2 match, whatever
follows, can rule 2 match again. -/
theorem pat2_block_none {d w1 w2 : List Char}
    (hd : d ≠ []) (hdd : ∀ c ∈ d, c.isDigit = true)
    (hw1 : w1 ≠ []) (hw1s : ∀ c ∈ w1, pyIsSpace c = true)
    (hw2 : w2 ≠ []) (hw2s : ∀ c ∈ w2, pyIsSpace c = true)
    {i : Nat} (hi : i < (g2core d w1 w2 ++ tenL).length) (w : List Char) :
    pat2Try ((g2core d w1 w2 ++ tenL).drop i ++ w) = none := by
  have hoT : g2core d w1 w2 ++ tenL =
      anchorL ++ (d ++ (w1 ++ (withL ++ (w2 ++ (verL ++ tenL))))) := by
    rw [g2core]; simp [List.append_assoc]
  rw [hoT] at hi ⊢
  rcases Nat.eq_zero_or_pos i with rfl | hipos
  · rw [List.drop_zero]
    have e0 : (anchorL ++ (d ++ (w1 ++ (withL ++ (w2 ++ (verL ++ tenL)))))) ++ w =
        g2core d w1 w2 ++ [' '] ++ '1' :: ('0' :: w) := by
      rw [g2core]
      simp [show tenL = [' ', '1', '0'] from rfl, List.append_assoc]
    rw [e0, pat2Try_local_gen hd hdd hw1 hw1s hw2 hw2s
      (by intro c hc; simp at hc; subst hc; decide) (by decide)]
    simp
  · by_cases hreg : i < anchorL.length
    · rw [List.drop_append_of_le_length (Nat.le_of_lt hreg)]
      apply pat2Try_eq_none_of_anchor
      intro hb
      rw [List.append_assoc] at hb
      exact not_pre_of_mismatch (anchor_mismatch_drop i hreg hipos) _ hb
    · push_neg at hreg
      rw [drop_append_ge hreg]
      have hlen : i - anchorL.length <
          (d ++ (w1 ++ (withL ++ (w2 ++ (verL ++ tenL))))).length := by
        rw [List.length_append] at hi
        omega
      rw [drop_cons_getD hlen, List.cons_append]
      apply pat2Try_eq_none_of_anchor
      intro hb
      rw [anchor_head] at hb
      have hp' := (List.cons_prefix_cons.mp hb).1
      exact tail_ne_p hdd hw1s hw2s
        (by intro c hc; simp [show tenL = [' ', '1', '0'] from rfl] at hc
            rcases hc with rfl | rfl | rfl <;> decide)
        _ (getD_mem hlen) hp'.symm

theorem anchor_len : anchorL.length = 19 := by decide

theorem anchor_p_pos :
    ∀ k, k < 19 → 0 < k → anchorL.getD k ' ' = 'p' → k = 2 ∨ k = 16 := by
  decide

theorem consumed_flat (d w1 w2 z : List Char) :
    g2core d w1 w2 ++ z ++ ['9'] =
      anchorL ++ (d ++ (w1 ++ (withL ++ (w2 ++ (verL ++ (z ++ ['9'])))))) := by
  rw [g2core]; simp [List.append_assoc]

/-- In the text consumed by a rule 2 match, `p` appears only at offsets 0, 2
and 16 (inside the anchor). -/
theorem consumed_p_pos {d w1 w2 z : List Char}
    (hdd : ∀ c ∈ d, c.isDigit = true)
    (hw1s : ∀ c ∈ w1, pyIsSpace c = true)
    (hw2s : ∀ c ∈ w2, pyIsSpace c = true)
    (hzs : ∀ c ∈ z, pyIsSpace c = true)
    {k : Nat} (hk0 : 0 < k) (hk : k < (g2core d w1 w2 ++ z ++ ['9']).length)
    (hp : (g2core d w1 w2 ++ z ++ ['9']).getD k ' ' = 'p') :
    k = 2 ∨ k = 16 := by
  rw [consumed_flat] at hk hp
  by_cases hreg : k < anchorL.length
  · rw [List.getD_append _ _ _ _ hreg] at hp
    exact anchor_p_pos k (anchor_len ▸ hreg) hk0 hp
  · push_neg at hreg
    exfalso
    rw [List.getD_append_right _ _ _ _ hreg] at hp
    have hlen : k - anchorL.length <
        (d ++ (w1 ++ (withL ++ (w2 ++ (verL ++ (z ++ ['9'])))))).length := by
      rw [List.length_append] at hk
      omega
    refine tail_ne_p hdd hw1s hw2s ?_ _ (getD_mem hlen) hp
    intro c hc
    simp only [List.mem_append, List.mem_singleton] at hc
    rcases hc with hc | rfl
    · exact space_ne_p (hzs c hc)
    · decide

/-- No position of the output of the rule 2 substitution starts a rule 2
match: the substitution is exhaustive and creates no new match. -/
theorem pat2_noRematch_aux :
    ∀ n t, t.length ≤ n → ∀ u, u <:+ scan fPat2 t → pat2Try u = none := by
  intro n
  induction n with
  | zero =>
    intro t htn u hu
    have : t = [] := List.eq_nil_of_length_eq_zero (Nat.le_zero.mp htn)
    subst this
    rw [scan_nil] at hu
    rw [List.suffix_nil.mp hu]
    decide
  | succ n ih =>
    intro t htn u hu
    cases t with
    | nil =>
      rw [scan_nil] at hu
      rw [List.suffix_nil.mp hu]
      decide
    | cons c rest =>
      cases h : fPat2.tryAt (c :: rest) with
      | some pr =>
        obtain ⟨o, r⟩ := pr
        rw [scan_cons_match fPat2 h] at hu
        have hrl : r.length ≤ n := by
          have := fPat2.shrink h
          simp only [List.length_cons] at htn this
          omega
        rcases suffix_append_cases hu with hc | ⟨i, hi, rfl⟩
        · exact ih r hrl u hc
        · obtain ⟨d, w1, w2, z, hd, hdd, hw1, hw1s, hw2, hw2s, hzs, ho, _⟩ :=
            pat2Try_eq_some h
          rw [ho] at hi ⊢
          exact pat2_block_none hd hdd hw1 hw1s hw2 hw2s hi _
      | none =>
        rw [scan_cons_skip fPat2 h] at hu
        have hrestl : rest.length ≤ n := by
          simp only [List.length_cons] at htn
          omega
        rcases List.suffix_cons_iff.mp hu with rfl | hu'
        · -- u is the whole output: show no match starts right here
          cases hsome : pat2Try (c :: scan fPat2 rest) with
          | none => rfl
          | some pr =>
            exfalso
            obtain ⟨g, rr⟩ := pr
            obtain ⟨d, w1, w2, z, hd, hdd, hw1, hw1s, hw2, hw2s, hzs, _, hstruct⟩ :=
              pat2Try_eq_some hsome
            have hC : c :: scan fPat2 rest = (g2core d w1 w2 ++ z ++ ['9']) ++ rr := by
              rw [hstruct]
              simp [List.append_assoc]
            rcases scan_first fPat2 rest with
              ⟨_, hsc, _⟩ | ⟨m, o2, r2, hm2, hmlen, _, hsc, _⟩
            · -- no match in rest: output = input, so the match is in the input
              rw [hsc] at hstruct
              have hloc : pat2Try (g2core d w1 w2 ++ z ++ '9' :: rr) =
                  some (g2core d w1 w2 ++ tenL, rr) :=
                pat2Try_local hd hdd hw1 hw1s hw2 hw2s hzs
              rw [← hstruct] at hloc
              have h' : pat2Try (c :: rest) = none := h
              rw [h'] at hloc
              exact Option.noConfusion hloc
            · have hmr : m ≤ rest.length := hmlen
              have htklen : (rest.take m).length = m := by
                rw [List.length_take]
                omega
              set Cc := g2core d w1 w2 ++ z ++ ['9'] with hCc
              have hLpos : 0 < Cc.length := by
                rw [hCc, consumed_flat]
                simp [anchorL]
              by_cases hcaseA : Cc.length ≤ m + 1
              · -- the whole consumed text lies in the copied region
                obtain ⟨k, hk⟩ : ∃ k, Cc.length = k + 1 := ⟨Cc.length - 1, by omega⟩
                have htakeC : (c :: scan fPat2 rest).take Cc.length = Cc := by
                  rw [hC, List.take_left]
                have htakeR : (c :: scan fPat2 rest).take Cc.length =
                    c :: rest.take k := by
                  rw [hsc, hk, List.take_succ_cons]
                  congr 1
                  rw [List.take_append_of_le_length (by omega), List.take_take]
                  congr 1
                  omega
                have hpre : Cc <+: c :: rest := by
                  rw [← htakeC, htakeR]
                  have : c :: rest.take k = (c :: rest).take (k + 1) := by
                    rw [List.take_succ_cons]
                  rw [this]
                  exact take_pre _ _
                obtain ⟨v, hv⟩ := hpre
                have hlocal : pat2Try (g2core d w1 w2 ++ z ++ '9' :: v) =
                    some (g2core d w1 w2 ++ tenL, v) :=
                  pat2Try_local hd hdd hw1 hw1s hw2 hw2s hzs
                have hcv : c :: rest = g2core d w1 w2 ++ z ++ '9' :: v := by
                  rw [← hv, hCc]
                  simp [List.append_assoc]
                rw [← hcv] at hlocal
                have h' : pat2Try (c :: rest) = none := h
                rw [h'] at hlocal
                exact Option.noConfusion hlocal
              · -- the first replacement starts inside the consumed text
                push_neg at hcaseA
                obtain ⟨d2, w12, w22, z2, hd2, hdd2, hw12, hw12s, hw22, hw22s,
                  hzs2, ho2, _⟩ := pat2Try_eq_some hm2
                -- character at position m+1 of the output is the block head 'p'
                have hgetS : (c :: scan fPat2 rest).getD (m + 1) ' ' = 'p' := by
                  rw [hsc]
                  show (rest.take m ++ (o2 ++ scan fPat2 r2)).getD m ' ' = 'p'
                  rw [List.getD_append_right _ _ _ _ (by omega), htklen, Nat.sub_self]
                  have ho2len : 0 < o2.length := by
                    rw [ho2, g2core]
                    simp [anchorL]
                  rw [List.getD_append _ _ _ _ ho2len, ho2, g2core]
                  have h19 : (0 : Nat) < anchorL.length := by rw [anchor_len]; omega
                  rw [List.append_assoc, List.append_assoc, List.append_assoc,
                    List.append_assoc, List.append_assoc,
                    List.getD_append _ _ _ _ h19]
                  decide
                have hgetC : Cc.getD (m + 1) ' ' = 'p' := by
                  have h1 : (Cc ++ rr).getD (m + 1) ' ' = Cc.getD (m + 1) ' ' :=
                    List.getD_append Cc rr ' ' (m + 1) hcaseA
                  rw [← hC] at h1
                  rw [← h1]
                  exact hgetS
                have hpos := @consumed_p_pos d w1 w2 z hdd hw1s hw2s hzs (m + 1)
                  (by omega) (by rw [← hCc]; omega) (by rw [← hCc]; exact hgetC)
                -- the output from position m+1 on, two ways
                have hdropC : (c :: scan fPat2 rest).drop (m + 1) =
                    Cc.drop (m + 1) ++ rr := by
                  rw [hC, List.drop_append_of_le_length (by omega)]
                have hdropS : (c :: scan fPat2 rest).drop (m + 1) =
                    o2 ++ scan fPat2 r2 := by
                  rw [hsc, List.drop_succ_cons,
                    drop_append_ge (by rw [htklen] : (rest.take m).length ≤ m),
                    htklen, Nat.sub_self, List.drop_zero]
                have hCflat : Cc = anchorL ++
                    (d ++ (w1 ++ (withL ++ (w2 ++ (verL ++ (z ++ ['9'])))))) := by
                  rw [hCc, consumed_flat]
                have hE : anchorL.drop (m + 1) ++
                    ((d ++ (w1 ++ (withL ++ (w2 ++ (verL ++ (z ++ ['9'])))))) ++ rr) =
                    anchorL ++ ((d2 ++ (w12 ++ (withL ++ (w22 ++ (verL ++ tenL))))) ++
                      scan fPat2 r2) := by
                  have h1 : Cc.drop (m + 1) = anchorL.drop (m + 1) ++
                      (d ++ (w1 ++ (withL ++ (w2 ++ (verL ++ (z ++ ['9'])))))) := by
                    rw [hCflat, List.drop_append_of_le_length (by
                      rw [anchor_len]; rcases hpos with h4 | h4 <;> omega)]
                  have h2 : o2 = anchorL ++
                      (d2 ++ (w12 ++ (withL ++ (w22 ++ (verL ++ tenL))))) := by
                    rw [ho2, g2core]
                    simp [List.append_assoc]
                  have h3 := hdropC.symm.trans hdropS
                  rw [h1, h2] at h3
                  simp only [List.append_assoc] at h3 ⊢
                  exact h3
                -- compare character index 1 on both sides
                rcases hpos with hm1 | hm1
                · rw [hm1] at hE
                  have hL : (anchorL.drop 2 ++
                      ((d ++ (w1 ++ (withL ++ (w2 ++ (verL ++ (z ++ ['9'])))))) ++ rr)).getD 1 ' ' = 'm' := by
                    rw [List.getD_append _ _ _ _ (by decide)]
                    decide
                  have hR : (anchorL ++
                      ((d2 ++ (w12 ++ (withL ++ (w22 ++ (verL ++ tenL))))) ++
                        scan fPat2 r2)).getD 1 ' ' = 'n' := by
                    rw [List.getD_append _ _ _ _ (by decide)]
                    decide
                  rw [hE] at hL
                  rw [hL] at hR
                  exact absurd hR (by decide)
                · rw [hm1] at hE
                  have hL : (anchorL.drop 16 ++
                      ((d ++ (w1 ++ (withL ++ (w2 ++ (verL ++ (z ++ ['9'])))))) ++ rr)).getD 1 ' ' = '@' := by
                    rw [List.getD_append _ _ _ _ (by decide)]
                    decide
                  have hR : (anchorL ++
                      ((d2 ++ (w12 ++ (withL ++ (w22 ++ (verL ++ tenL))))) ++
                        scan fPat2 r2)).getD 1 ' ' = 'n' := by
                    rw [List.getD_append _ _ _ _ (by decide)]
                    decide
                  rw [hE] at hL
                  rw [hL] at hR
                  exact absurd hR (by decide)
        · exact ih rest hrestl u hu'

/-- `re.sub` with fix-all rule 2 leaves no position where the rule matches. -/
theorem pat2_noRematch (s : List Char) : NoMatchAll fPat2 (scan fPat2 s) :=
  fun u hu => pat2_noRematch_aux s.length s (Nat.le_refl _) u hu

/-! ### The scripts

Shared string constants, then one namespace per script, with the source's
function names. -/

def A1 : List Char := "cache: 'npm'".toList

def B1 : List Char := "cache: 'pnpm'".toList

def npmci : List Char := "run: npm ci".toList

def ciRepl : List Char := "run: pnpm install --frozen-lockfile".toList

def npmin : List Char := "run: npm install".toList

def inRepl : List Char := "run: pnpm install".toList

def marker : List Char := "pnpm/action-setup".toList

def A2 : List Char := "pnpm/action-setup@v4".toList

def B2 : List Char := "pnpm/action-setup@v2".toList

def ymlExt : List Char := ".yml".toList

/-- A directory listing in the operating system's enumeration order:
(file name, file content) pairs.  `pathlib.Path.glob` yields entries in this
order; `sorted()` orders `Path`s lexicographically by their string. -/
def Listing := List (List Char × List Char)

/-- `Path('.github/workflows').glob('*.yml')` for a directory that may be
missing: in Python 3.x `glob` on a nonexistent directory silently yields no
entries. -/
def globYml (dir : Option Listing) : Listing :=
  match dir with
  | none => []
  | some entries => entries.filter (fun e => ymlExt.isSuffixOf e.1)

namespace FixGithub

def fCache : SubstFn := litSubst A1 B1 (by decide)

def fCi : SubstFn := leSubst npmci ciRepl (by decide)

def fIn : SubstFn := leSubst npmin inRepl (by decide)

def PNPM_SETUP : List Char :=
  "      - name: Install pnpm\n        uses: pnpm/action-setup@v4\n        with:\n          version: 9\n\n".toList

def has_pnpm_setup (s : List Char) : Bool := containsSub marker s

def needs_pnpm_setup (s : List Char) : Bool :=
  containsSub A1 s || containsSub npmci s || containsSub npmin s

def nameLit : List Char := "- name: Setup Node.js".toList

def usesLit : List Char := "uses: actions/setup-node@".toList

/-- A match of `\s+- name: Setup Node\.js[^\n]*\n\s+uses: actions/setup-node@`
starting at the head of `t`. -/
def setupNodeAt (t : List Char) : Bool :=
  let w := t.takeWhile pyIsSpace
  if w.isEmpty then false
  else
    let t1 := t.dropWhile pyIsSpace
    if nameLit.isPrefixOf t1 then
      let t2 := t1.drop nameLit.length
      match t2.dropWhile (fun c => !(c == '\n')) with
      | [] => false
      | _ :: t4 =>
        let w2 := t4.takeWhile pyIsSpace
        if w2.isEmpty then false
        else usesLit.isPrefixOf (t4.dropWhile pyIsSpace)
    else false

/-- `re.search(...).start()`: index of the leftmost match start, if any. -/
def findAnchor : List Char → Option Nat
  | [] => none
  | c :: rest =>
    if setupNodeAt (c :: rest) then some 0
    else (findAnchor rest).map (· + 1)

def add_pnpm_setup (s : List Char) : List Char :=
  match findAnchor s with
  | none => s
  | some i => s.take i ++ PNPM_SETUP ++ s.drop i

/-- Rule 1 of `fix_workflow`: `content.replace("cache: 'npm'", "cache: 'pnpm'")`
behind its substring guard. -/
def step1 (s : List Char) : List Char :=
  if containsSub A1 s then scan fCache s else s

/-- Rule 2: `re.sub(r'run: npm ci$', ..., MULTILINE)` behind its guard. -/
def step2 (s : List Char) : List Char :=
  if containsSub npmci s then scan fCi s else s

/-- Rule 3: `re.sub(r'run: npm install$', ..., MULTILINE)` behind its
`re.search` guard. -/
def step3 (s : List Char) : List Char :=
  if existsM fIn s then scan fIn s else s

/-- Rule 4: the conditional insertion of the pnpm setup step. -/
def step4 (s : List Char) : List Char :=
  if has_pnpm_setup s then s else add_pnpm_setup s

/-- `fix_workflow`: the modified flag and the content written back (equal to
the input when nothing is written). -/
def fix_workflow (s : List Char) : Bool × List Char :=
  if !(needs_pnpm_setup s) then (false, s)
  else
    (containsSub A1 s || containsSub npmci (step1 s) ||
        existsM fIn (step2 (step1 s)) ||
        !(has_pnpm_setup (step3 (step2 (step1 s)))),
      step4 (step3 (step2 (step1 s))))

/-- `main`: exit status and the processed file names in processing order
(the script aborts with `sys.exit(1)` when the directory is missing, and
sorts the globbed files). -/
def run (dir : Option Listing) : Nat × List (List Char) :=
  match dir with
  | none => (1, [])
  | some d =>
    (0, (((globYml (some d)).map Prod.fst).insertionSort (· ≤ ·)))

end FixGithub

namespace FixAll

def fLit2 : SubstFn := litSubst A2 B2 (by decide)

def msg1 (count : Nat) : String :=
  "Updated action version v4 → v2 (" ++ toString count ++ " occurrences)"

def msg2 (count : Nat) : String :=
  "Updated pnpm version 9 → 10 (" ++ toString count ++ " occurrences)"

structure FixResult where
  changed : Bool
  changes : List String
  content : List Char
  deriving DecidableEq

/-- Rule 1: `re.sub` of the literal `pnpm/action-setup@v4` behind its
`re.search` guard. -/
def rule1 (s : List Char) : List Char :=
  if existsM fLit2 s then scan fLit2 s else s

/-- Rule 2: the contextual `version: 9 → 10` substitution behind its
`re.search` guard. -/
def rule2 (s : List Char) : List Char :=
  if existsM fPat2 s then scan fPat2 s else s

/-- `fix_workflow_file`: both substitutions in order, the reported change
messages (occurrence counts taken from the original content, and returned
only in the `content != original_content` branch, as in the source), and the
success flag `content != original_content`. -/
def fix_workflow_file (s : List Char) : FixResult :=
  { changed := rule2 (rule1 s) != s
    changes :=
      if rule2 (rule1 s) != s then
        (if existsM fLit2 s then [msg1 (countM fLit2 s)] else []) ++
          (if existsM fPat2 (rule1 s) then [msg2 (countM fPat2 s)] else [])
      else []
    content := rule2 (rule1 s) }

/-- `main`: always exits normally; processes the globbed files in sorted
order (missing directory: `glob` yields nothing). -/
def run (dir : Option Listing) : Nat × List (List Char) :=
  (0, (((globYml dir).map Prod.fst).insertionSort (· ≤ ·)))

end FixAll

namespace FixPnpm

def cachePnpm : List Char := "cache: 'pnpm'".toList

def PNPM_SETUP : List Char :=
  "      - name: 📦 Setup pnpm\n        uses: pnpm/action-setup@v2\n        with:\n          version: 8\n\n".toList

def sixSp : List Char := "      ".toList

def eightSp : List Char := "        ".toList

def nameP : List Char := "- name: ".toList

def setupNode : List Char := "Setup Node".toList

def usesV4 : List Char := "uses: actions/setup-node@v4".toList

/-- A match of
`[ ]{6}- name: [^\n]+Setup Node[^\n]*\n[ ]{8}uses: actions/setup-node@v4`
starting at the head of `s`; the greedy `[^\n]+` backtracks, so the line
matches exactly when `Setup Node` occurs at offset ≥ 1 after `- name: `.
On success `re.subn` emits the setup block followed by the whole match. -/
def setupV4Try (s : List Char) : Option (List Char × List Char) :=
  if (sixSp ++ nameP).isPrefixOf s then
    let afterName := s.drop (sixSp ++ nameP).length
    let line := afterName.takeWhile (fun c => !(c == '\n'))
    if containsSub setupNode (line.drop 1) then
      match afterName.dropWhile (fun c => !(c == '\n')) with
      | [] => none
      | _ :: t3 =>
        if (eightSp ++ usesV4).isPrefixOf t3 then
          some (PNPM_SETUP ++ (sixSp ++ nameP ++ line ++ '\n' :: (eightSp ++ usesV4)),
            t3.drop (eightSp ++ usesV4).length)
        else none
    else none
  else none

def fIns : SubstFn where
  tryAt := setupV4Try
  consumes := by
    intro s o r h
    simp only [setupV4Try] at h
    split at h
    case' isFalse => exact Option.noConfusion h
    next hpre =>
      split at h
      case' isFalse => exact Option.noConfusion h
      next hsn =>
        split at h
        next => exact Option.noConfusion h
        next c t3 hdrop =>
          split at h
          case' isFalse => exact Option.noConfusion h
          next huses =>
            rw [Option.some.injEq, Prod.mk.injEq] at h
            obtain ⟨_, hr⟩ := h
            obtain ⟨t0, ht0⟩ := isPre_iff.mp hpre
            obtain ⟨t5, ht5⟩ := isPre_iff.mp huses
            refine ⟨sixSp ++ nameP ++
              (s.drop (sixSp ++ nameP).length).takeWhile (fun c => !(c == '\n')) ++
              '\n' :: (eightSp ++ usesV4), by simp [sixSp, nameP], ?_⟩
            have hafter : s.drop (sixSp ++ nameP).length = t0 := by
              rw [← ht0, List.drop_left]
            have hc : c = '\n' := by
              have := dropWhile_head_false hdrop
              simpa using this
            have hsplit : s.drop (sixSp ++ nameP).length =
                (s.drop (sixSp ++ nameP).length).takeWhile (fun c => !(c == '\n')) ++
                  c :: t3 := by
              conv_lhs => rw [← List.takeWhile_append_dropWhile
                (fun c => !(c == '\n')) (s.drop (sixSp ++ nameP).length)]
              rw [hdrop]
            have ht3 : t3 = (eightSp ++ usesV4) ++ r := by
              rw [← hr, ← ht5, List.drop_left]
            have h1 : t0 =
                (s.drop (sixSp ++ nameP).length).takeWhile (fun c => !(c == '\n')) ++
                  '\n' :: (eightSp ++ usesV4 ++ r) := by
              conv_lhs => rw [← hafter, hsplit]
              rw [hc, ht3]
            conv_lhs => rw [← ht0, h1]
            simp [List.append_assoc]

/-- `fix_workflow_file` of fix-pnpm-workflows.py: no-op when the pnpm setup
marker is already present; otherwise `re.subn`, written only when the count
is positive. -/
def fix_workflow_file (s : List Char) : Bool × List Char :=
  if containsSub marker s then (false, s)
  else if 0 < countM fIns s then (true, scan fIns s)
  else (false, s)

/-- `find_workflow_files` then `main`: glob order (unsorted), filtered to
files whose content mentions `cache: 'pnpm'`. -/
def run (dir : Option Listing) : Nat × List (List Char) :=
  (0, (((globYml dir).filter (fun e => containsSub cachePnpm e.2)).map Prod.fst))

end FixPnpm

namespace UpdatePnpm

/-- `update_pnpm_version`: the version-8 contextual substitution, written
back only when the content changed. -/
def update_pnpm_version (s : List Char) : Bool × List Char :=
  if scan fPat8 s != s then (true, scan fPat8 s) else (false, s)

/-- `find_workflow_files` then `main`: glob order (unsorted), filtered to
files containing `pnpm/action-setup`. -/
def run (dir : Option Listing) : Nat × List (List Char) :=
  (0, (((globYml dir).filter (fun e => containsSub marker e.2)).map Prod.fst))

end UpdatePnpm

/-! ### Small glue lemmas for discharging decidable side conditions -/

theorem patBlockOk_of_parts {P o : List Char} (h1 : P.length ≤ o.length)
    (h2 : ∀ i < o.length, ¬ P <+: o.drop i ∧ ¬ (o.drop i <+: P))
    (h3 : ∀ j < P.length, 0 < j → ¬ (P.drop j <+: o)) : PatBlockOk P o :=
  ⟨h1, h2, fun j hj hjl => h3 j hjl hj⟩

theorem ball_swap {n : Nat} {Q : Nat → Prop} (h : ∀ j < n, 0 < j → Q j) :
    ∀ j, 0 < j → j < n → Q j := fun j h1 h2 => h j h2 h1

theorem take_swap {pat o : List Char}
    (h : ∀ k < pat.length + 1, 0 < k → ¬ (pat.take k <:+ o)) :
    ∀ k, 0 < k → k ≤ pat.length → ¬ (pat.take k <:+ o) :=
  fun k h1 h2 => h k (by omega) h1

theorem bool_false_of_not_true {b : Bool} (h : ¬ b = true) : b = false := by
  cases b
  · rfl
  · exact absurd rfl h

theorem containsSub_false_of_zero {A : List Char} (hA : A ≠ []) {s : List Char}
    (h : countOcc A s = 0) : containsSub A s = false := by
  cases hc : containsSub A s
  · rfl
  · exfalso
    obtain ⟨t, ht, hp⟩ := (containsSub_iff s).mp hc
    exact (countOcc_eq_zero_iff hA s).mp h t ht hp

theorem litSubst_out_eq {A B : List Char} {hA : A ≠ []} {t o r : List Char}
    (h : (litSubst A B hA).tryAt t = some (o, r)) : o = B := by
  have h' : litTry A B t = some (o, r) := h
  simp only [litTry] at h'
  split at h'
  next =>
    rw [Option.some.injEq, Prod.mk.injEq] at h'
    exact h'.1.symm
  next => exact Option.noConfusion h'

theorem leSubst_out_eq {pat repl : List Char} {hp : pat ≠ []} {t o r : List Char}
    (h : (leSubst pat repl hp).tryAt t = some (o, r)) : o = repl := by
  have h' : leTry pat repl t = some (o, r) := h
  exact (leTry_eq_some_iff.mp h').1

/-- A literal substitution wipes out every occurrence of its own pattern. -/
theorem litSubst_kill {A B : List Char} (hA : A ≠ []) (hb : PatBlockOk A B)
    (s : List Char) : countOcc A (scan (litSubst A B hA) s) = 0 := by
  refine scan_countOcc_zero hA ?_ ?_
  · intro t _ hn hp
    exact litTry_eq_none_iff.mp hn hp
  · intro t o r _ hm
    rw [litSubst_out_eq hm]
    exact hb

theorem leSubst_pres_zero {pat repl P : List Char} (hp : pat ≠ []) (hP : P ≠ [])
    (hb : PatBlockOk P repl) {s : List Char} (h0 : countOcc P s = 0) :
    countOcc P (scan (leSubst pat repl hp) s) = 0 := by
  refine scan_countOcc_zero_pres hP h0 ?_
  intro t o r _ hm
  rw [leSubst_out_eq hm]
  exact hb

theorem leSubst_pres_not_end {pat repl q : List Char} (hp : pat ≠ [])
    (hq : q ≠ []) (hlen : q.length ≤ repl.length)
    (htake : ∀ k, 0 < k → k ≤ q.length → ¬ (q.take k <:+ repl))
    {s : List Char} (hend : ¬ q <:+ s) :
    ¬ q <:+ scan (leSubst pat repl hp) s := by
  refine scan_suffix_preserve hq ?_ ?_ hend
  · intro t o r _ hm
    rw [leSubst_out_eq hm]
    exact hlen
  · intro t o r _ hm
    rw [leSubst_out_eq hm]
    exact htake

/-- A line-end rule that cannot match anywhere in a text still cannot match
after another line-end rule's substitution, provided the replacement block is
safe for it. -/
theorem leSubst_pres_noMatchAll {pat repl p2 r2 : List Char} (hp : pat ≠ [])
    {hp2 : p2 ≠ []} (hb : PatBlockOk (p2 ++ ['\n']) repl)
    (hlen : p2.length ≤ repl.length)
    (htake : ∀ k, 0 < k → k ≤ p2.length → ¬ (p2.take k <:+ repl))
    {s : List Char} (h : NoMatchAll (leSubst p2 r2 hp2) s) :
    NoMatchAll (leSubst p2 r2 hp2) (scan (leSubst pat repl hp) s) := by
  rw [leSubst_noMatchAll_iff] at h ⊢
  exact ⟨leSubst_pres_zero hp (by simp) hb h.1,
    leSubst_pres_not_end hp hp2 hlen htake h.2⟩

/-- Splicing a block into a text keeps a line-end rule unmatchable, provided
the block is safe for it. -/
theorem insert_pres_noMatchAll {p2 r2 P : List Char} {hp2 : p2 ≠ []}
    (hlen1 : (p2 ++ ['\n']).length ≤ P.length)
    (h1 : ∀ k < P.length,
      ¬ (p2 ++ ['\n']) <+: P.drop k ∧ ¬ (P.drop k <+: p2 ++ ['\n']))
    (h2 : ∀ j, 0 < j → j < (p2 ++ ['\n']).length →
      ¬ ((p2 ++ ['\n']).drop j <+: P))
    (hlen2 : p2.length ≤ P.length)
    (htake : ∀ k, 0 < k → k ≤ p2.length → ¬ (p2.take k <:+ P))
    {x z : List Char} (h : NoMatchAll (leSubst p2 r2 hp2) (x ++ z)) :
    NoMatchAll (leSubst p2 r2 hp2) (x ++ (P ++ z)) := by
  rw [leSubst_noMatchAll_iff] at h ⊢
  exact ⟨insert_countOcc_zero (by simp) hlen1 h1 h2 x z h.1,
    insert_not_end hp2 hlen2 htake x z h.2⟩

/-! ### Stage lemmas for the maintenance script -/

namespace FixGithub

theorem step1_A1_zero (s : List Char) : countOcc A1 (step1 s) = 0 := by
  unfold step1
  split
  · exact litSubst_kill (by decide)
      (patBlockOk_of_parts (by decide) (by decide) (by decide)) s
  next hc =>
    exact countOcc_zero_of_noSub (by decide) (bool_false_of_not_true hc)

theorem step1_id {s : List Char} (h : countOcc A1 s = 0) : step1 s = s := by
  have hc := containsSub_false_of_zero (by decide : A1 ≠ []) h
  simp [step1, hc]

theorem step2_id {s : List Char} (h : NoMatchAll fCi s) : step2 s = s := by
  unfold step2
  split
  · exact scan_of_noMatch h
  · rfl

theorem step3_id {s : List Char} (h : NoMatchAll fIn s) : step3 s = s := by
  unfold step3
  split
  · exact scan_of_noMatch h
  · rfl

theorem step2_noMatch (t : List Char) : NoMatchAll fCi (step2 t) := by
  unfold step2
  split
  · exact leSubst_noRematch (by decide) (by decide) (take_swap (by decide))
      (patBlockOk_of_parts (by decide) (by decide) (by decide)) t
  next hc =>
    exact leSubst_noMatchAll_of_noSub (by decide) (bool_false_of_not_true hc)

theorem step3_noMatch (t : List Char) : NoMatchAll fIn (step3 t) := by
  unfold step3
  split
  · exact leSubst_noRematch (by decide) (by decide) (take_swap (by decide))
      (patBlockOk_of_parts (by decide) (by decide) (by decide)) t
  next hc =>
    exact existsM_eq_false_iff fIn t |>.mp (bool_false_of_not_true hc)

theorem step2_pres_zero {P : List Char} (hP : P ≠ []) (hb : PatBlockOk P ciRepl)
    {s : List Char} (h : countOcc P s = 0) : countOcc P (step2 s) = 0 := by
  unfold step2
  split
  · exact leSubst_pres_zero (by decide) hP hb h
  · exact h

theorem step3_pres_zero {P : List Char} (hP : P ≠ []) (hb : PatBlockOk P inRepl)
    {s : List Char} (h : countOcc P s = 0) : countOcc P (step3 s) = 0 := by
  unfold step3
  split
  · exact leSubst_pres_zero (by decide) hP hb h
  · exact h

theorem step4_pres_zero {P : List Char} (hP : P ≠ [])
    (hQlen : P.length ≤ PNPM_SETUP.length)
    (h1 : ∀ k < PNPM_SETUP.length,
      ¬ P <+: PNPM_SETUP.drop k ∧ ¬ (PNPM_SETUP.drop k <+: P))
    (h2 : ∀ j, 0 < j → j < P.length → ¬ (P.drop j <+: PNPM_SETUP))
    {s : List Char} (h : countOcc P s = 0) : countOcc P (step4 s) = 0 := by
  unfold step4
  split
  · exact h
  · unfold add_pnpm_setup
    split
    · exact h
    next i _ =>
      have hxz : countOcc P (s.take i ++ s.drop i) = 0 := by
        rw [List.take_append_drop]
        exact h
      have := insert_countOcc_zero hP hQlen h1 h2 (s.take i) (s.drop i) hxz
      simpa [List.append_assoc] using this

theorem step3_pres_ci {t : List Char} (h : NoMatchAll fCi t) :
    NoMatchAll fCi (step3 t) := by
  unfold step3
  split
  · exact leSubst_pres_noMatchAll (by decide)
      (patBlockOk_of_parts (by decide) (by decide) (by decide)) (by decide)
      (take_swap (by decide)) h
  · exact h

theorem step4_pres_noMatch {p2 r2 : List Char} {hp2 : p2 ≠ []}
    (hlen1 : (p2 ++ ['\n']).length ≤ PNPM_SETUP.length)
    (h1 : ∀ k < PNPM_SETUP.length,
      ¬ (p2 ++ ['\n']) <+: PNPM_SETUP.drop k ∧
        ¬ (PNPM_SETUP.drop k <+: p2 ++ ['\n']))
    (h2 : ∀ j, 0 < j → j < (p2 ++ ['\n']).length →
      ¬ ((p2 ++ ['\n']).drop j <+: PNPM_SETUP))
    (hlen2 : p2.length ≤ PNPM_SETUP.length)
    (htake : ∀ k, 0 < k → k ≤ p2.length → ¬ (p2.take k <:+ PNPM_SETUP))
    {s : List Char} (h : NoMatchAll (leSubst p2 r2 hp2) s) :
    NoMatchAll (leSubst p2 r2 hp2) (step4 s) := by
  unfold step4
  split
  · exact h
  · unfold add_pnpm_setup
    split
    · exact h
    next i _ =>
      have hxz : NoMatchAll (leSubst p2 r2 hp2) (s.take i ++ s.drop i) := by
        rw [List.take_append_drop]
        exact h
      have := insert_pres_noMatchAll hlen1 h1 h2 hlen2 htake hxz
      rw [← List.append_assoc] at this
      exact this

def psPre : List Char := "      - name: Install pnpm\n        uses: ".toList

def psSuf : List Char := "@v4\n        with:\n          version: 9\n\n".toList

theorem ps_split : PNPM_SETUP = psPre ++ (marker ++ psSuf) := by decide

/-- After the insertion stage, either the marker is present, or the stage did
nothing at all and neither marker nor anchor is in the text. -/
theorem step4_cases (s : List Char) :
    containsSub marker (step4 s) = true ∨
      (step4 s = s ∧ findAnchor s = none ∧ containsSub marker s = false) := by
  unfold step4
  split
  next hm => exact Or.inl hm
  next hm =>
    unfold add_pnpm_setup
    split
    next heq => exact Or.inr ⟨rfl, heq, bool_false_of_not_true hm⟩
    next i heq =>
      left
      refine (containsSub_iff _).mpr
        ⟨marker ++ (psSuf ++ s.drop i), ⟨s.take i ++ psPre, ?_⟩,
          List.prefix_append _ _⟩
      rw [ps_split]
      simp [List.append_assoc]

theorem out_A1_zero (s : List Char) :
    countOcc A1 (step4 (step3 (step2 (step1 s)))) = 0 :=
  step4_pres_zero (by decide) (by decide) (by decide) (ball_swap (by decide))
    (step3_pres_zero (by decide)
      (patBlockOk_of_parts (by decide) (by decide) (by decide))
      (step2_pres_zero (by decide)
        (patBlockOk_of_parts (by decide) (by decide) (by decide))
        (step1_A1_zero s)))

theorem out_noMatch_ci (s : List Char) :
    NoMatchAll fCi (step4 (step3 (step2 (step1 s)))) :=
  step4_pres_noMatch (by decide) (by decide) (ball_swap (by decide)) (by decide)
    (take_swap (by decide)) (step3_pres_ci (step2_noMatch (step1 s)))

theorem out_noMatch_in (s : List Char) :
    NoMatchAll fIn (step4 (step3 (step2 (step1 s)))) :=
  step4_pres_noMatch (by decide) (by decide) (ball_swap (by decide)) (by decide)
    (take_swap (by decide)) (step3_noMatch (step2 (step1 s)))

theorem step4_id_marker {t : List Char} (h : containsSub marker t = true) :
    step4 t = t := by
  unfold step4
  rw [if_pos (show has_pnpm_setup t = true from h)]

theorem step4_id_none {t : List Char} (hm : containsSub marker t = false)
    (ha : findAnchor t = none) : step4 t = t := by
  have hm' : ¬ has_pnpm_setup t = true := by
    intro hc
    rw [show has_pnpm_setup t = containsSub marker t from rfl, hm] at hc
    exact Bool.noConfusion hc
  unfold step4
  rw [if_neg hm']
  unfold add_pnpm_setup
  rw [ha]

theorem fix_workflow_not_needed {s : List Char}
    (h : ¬ needs_pnpm_setup s = true) : fix_workflow s = (false, s) := by
  unfold fix_workflow
  simp [h]

theorem fix_workflow_needed {s : List Char} (h : needs_pnpm_setup s = true) :
    (fix_workflow s).2 = step4 (step3 (step2 (step1 s))) := by
  unfold fix_workflow
  simp [h]

/-- The content the maintenance script writes is a fixed point of another
pass of its rules. -/
theorem fix_workflow_idem (s : List Char) :
    (fix_workflow ((fix_workflow s).2)).2 = (fix_workflow s).2 := by
  by_cases hn : needs_pnpm_setup s = true
  · have h1 := fix_workflow_needed hn
    rw [h1]
    have hA1 := out_A1_zero s
    have hci := out_noMatch_ci s
    have hin := out_noMatch_in s
    by_cases hn2 :
      needs_pnpm_setup (step4 (step3 (step2 (step1 s)))) = true
    · rw [fix_workflow_needed hn2, step1_id hA1, step2_id hci, step3_id hin]
      rcases step4_cases (step3 (step2 (step1 s))) with hmk | ⟨hid, hanch, hmk0⟩
      · exact step4_id_marker hmk
      · rw [hid]
        exact step4_id_none hmk0 hanch
    · rw [fix_workflow_not_needed hn2]
  · rw [fix_workflow_not_needed hn, fix_workflow_not_needed hn]

/-- When the modified flag comes back false, the written-back content is the
original. -/
theorem fix_workflow_unmodified {s : List Char}
    (h : (fix_workflow s).1 = false) : (fix_workflow s).2 = s := by
  by_cases hn : needs_pnpm_setup s = true
  · have h1 : fix_workflow s =
        (containsSub A1 s || containsSub npmci (step1 s) ||
          existsM fIn (step2 (step1 s)) ||
          !(has_pnpm_setup (step3 (step2 (step1 s)))),
          step4 (step3 (step2 (step1 s)))) := by
      unfold fix_workflow
      simp [hn]
    rw [h1] at h ⊢
    simp only [Bool.or_eq_false_iff, Bool.not_eq_false'] at h
    obtain ⟨⟨⟨hA, hB⟩, hC⟩, hD⟩ := h
    have e1 : step1 s = s := by simp [step1, hA]
    rw [e1] at hB hC hD ⊢
    have e2 : step2 s = s := by simp [step2, hB]
    rw [e2] at hC hD ⊢
    have e3 : step3 s = s := by simp [step3, hC]
    rw [e3] at hD ⊢
    simp [step4, hD]
  · rw [fix_workflow_not_needed hn]

end FixGithub

/-! ### The literal `@v4` pattern against rule 2's replacement blocks -/

theorem litSubst_zero_of_noMatchAll {A B : List Char} {hA : A ≠ []}
    {s : List Char} (h : NoMatchAll (litSubst A B hA) s) : countOcc A s = 0 :=
  (countOcc_eq_zero_iff hA s).mpr (fun t ht => litTry_eq_none_iff.mp (h t ht))

/-- Everything after the anchor in rule 2's replacement block. -/
def tail2 (d w1 w2 : List Char) : List Char :=
  d ++ (w1 ++ (withL ++ (w2 ++ (verL ++ tenL))))

theorem a2_flat : A2 = anchorL ++ ['4'] := by decide

theorem a2_cons : A2 = 'p' :: "npm/action-setup@v4".toList := by decide

theorem a2_len : A2.length = 20 := by decide

theorem o2_flat (d w1 w2 : List Char) :
    g2core d w1 w2 ++ tenL = anchorL ++ tail2 d w1 w2 := by
  rw [g2core, tail2]
  simp [List.append_assoc]

theorem a2_drop_not_pre_anchor :
    ∀ i < 20, 0 < i → ¬ (A2.drop i <+: anchorL) := by decide

theorem anchor_not_pre_a2_drop1 : ¬ (anchorL <+: A2.drop 1) := by decide

theorem anchor_drop_not_pre_a2 :
    ∀ i < 19, 0 < i → ¬ (anchorL.drop i <+: A2) := by decide

theorem tail2_ne_p {d w1 w2 : List Char}
    (hdd : ∀ c ∈ d, c.isDigit = true)
    (hw1s : ∀ c ∈ w1, pyIsSpace c = true)
    (hw2s : ∀ c ∈ w2, pyIsSpace c = true) :
    ∀ c ∈ tail2 d w1 w2, c ≠ 'p' :=
  tail_ne_p hdd hw1s hw2s (by decide)

theorem tail2_len (d w1 w2 : List Char) : 16 ≤ (tail2 d w1 w2).length := by
  have hwl : withL.length = 5 := by decide
  have hvl : verL.length = 8 := by decide
  have htl : tenL.length = 3 := by decide
  have h : (tail2 d w1 w2).length =
      d.length + (w1.length + (withL.length +
        (w2.length + (verL.length + tenL.length)))) := by
    rw [tail2]
    simp [List.length_append]
  omega

/-- When the consumed text is not an occurrence of the literal
`pnpm/action-setup@v4`, rule 2's replacement block cannot host or span one
either. -/
theorem pat2_block_A2 {t o r : List Char}
    (hm : pat2Try t = some (o, r)) (hA2 : ¬ A2 <+: t) : PatBlockOk A2 o := by
  obtain ⟨d, w1, w2, z, hd, hdd, hw1, hw1s, hw2, hw2s, hzs, ho, ht⟩ :=
    pat2Try_eq_some hm
  subst ho
  have hflat := o2_flat d w1 w2
  have hTp := tail2_ne_p hdd hw1s hw2s
  have hTlen := tail2_len d w1 w2
  refine ⟨?_, ?_, ?_⟩
  · rw [hflat, a2_len, List.length_append, anchor_len]
    omega
  · intro i hi
    rw [hflat] at hi ⊢
    by_cases hreg : i < 19
    · have hdrop : (anchorL ++ tail2 d w1 w2).drop i =
          anchorL.drop i ++ tail2 d w1 w2 :=
        List.drop_append_of_le_length (by rw [anchor_len]; omega)
      constructor
      · intro hpre
        rw [hdrop] at hpre
        by_cases hi0 : i = 0
        · subst hi0
          rw [List.drop_zero, a2_flat, List.prefix_append_right_inj] at hpre
          obtain ⟨c, d', rfl⟩ := List.exists_cons_of_ne_nil hd
          have hc4 : c = '4' := by
            have h4 : ('4' : Char) :: ([] : List Char) <+:
                c :: (d' ++ (w1 ++ (withL ++ (w2 ++ (verL ++ tenL))))) := by
              have : tail2 (c :: d') w1 w2 =
                  c :: (d' ++ (w1 ++ (withL ++ (w2 ++ (verL ++ tenL))))) := rfl
              rw [this] at hpre
              exact hpre
            exact (List.cons_prefix_cons.mp h4).1.symm
          subst hc4
          refine hA2 ?_
          have ht2 : t = anchorL ++
              ('4' :: (d' ++ (w1 ++ (withL ++ (w2 ++
                (verL ++ (z ++ '9' :: r))))))) := by
            rw [ht, g2core]
            simp [List.append_assoc]
          rw [ht2, a2_flat, List.prefix_append_right_inj]
          exact List.cons_prefix_cons.mpr ⟨rfl, List.nil_prefix⟩
        · have hi0' : 0 < i := Nat.pos_of_ne_zero hi0
          have hx : anchorL.drop i <+: A2 := by
            rcases pre_or_pre (List.prefix_append (anchorL.drop i)
              (tail2 d w1 w2)) hpre with hc | hc
            · exact hc
            · exfalso
              have hl := hc.length_le
              rw [List.length_drop, anchor_len, a2_len] at hl
              omega
          exact anchor_drop_not_pre_a2 i hreg hi0' hx
      · intro hpre
        rw [hdrop] at hpre
        by_cases hi0 : i = 0
        · subst hi0
          rw [List.drop_zero, a2_flat] at hpre
          have hl := (List.prefix_append_right_inj anchorL |>.mp hpre).length_le
          simp at hl
          omega
        · have hi0' : 0 < i := Nat.pos_of_ne_zero hi0
          have hx : anchorL.drop i <+: A2 :=
            (List.prefix_append _ _).trans hpre
          exact anchor_drop_not_pre_a2 i hreg hi0' hx
    · push_neg at hreg
      have hdrop : (anchorL ++ tail2 d w1 w2).drop i =
          (tail2 d w1 w2).drop (i - 19) := by
        rw [drop_append_ge (by rw [anchor_len]; omega), anchor_len]
      have hk : i - 19 < (tail2 d w1 w2).length := by
        rw [List.length_append, anchor_len] at hi
        omega
      have hhead : (tail2 d w1 w2).getD (i - 19) ' ' ≠ 'p' :=
        hTp _ (getD_mem hk)
      have hTd := drop_cons_getD hk
      constructor
      · intro hpre
        rw [hdrop, hTd, a2_cons] at hpre
        exact head_ne_not_pre (fun he => hhead he.symm) hpre
      · intro hpre
        rw [hdrop, hTd, a2_cons] at hpre
        exact head_ne_not_pre hhead hpre
  · intro j hj hjl hpre
    rw [hflat] at hpre
    rw [a2_len] at hjl
    rcases pre_or_pre hpre (List.prefix_append anchorL (tail2 d w1 w2))
      with hc | hc
    · exact a2_drop_not_pre_anchor j hjl hj hc
    · have hl := hc.length_le
      rw [List.length_drop, a2_len, anchor_len] at hl
      have hj1 : j = 1 := by omega
      subst hj1
      exact anchor_not_pre_a2_drop1 hc

namespace FixAll

theorem rule1_A2_zero (s : List Char) : countOcc A2 (rule1 s) = 0 := by
  unfold rule1
  split
  · exact litSubst_kill (by decide)
      (patBlockOk_of_parts (by decide) (by decide) (by decide)) s
  next hc =>
    exact litSubst_zero_of_noMatchAll
      ((existsM_eq_false_iff fLit2 s).mp (bool_false_of_not_true hc))

theorem rule2_A2_zero {s : List Char} (h : countOcc A2 s = 0) :
    countOcc A2 (rule2 s) = 0 := by
  unfold rule2
  split
  · refine scan_countOcc_zero_pres (by decide) h ?_
    intro t o r ht hm
    exact pat2_block_A2 hm ((countOcc_eq_zero_iff (by decide) s).mp h t ht)
  · exact h

theorem rule2_noMatch (s : List Char) : NoMatchAll fPat2 (rule2 s) := by
  unfold rule2
  split
  · exact pat2_noRematch s
  next hc => exact (existsM_eq_false_iff fPat2 s).mp (bool_false_of_not_true hc)

theorem rule1_id {s : List Char} (h : countOcc A2 s = 0) : rule1 s = s := by
  have he : existsM fLit2 s = false :=
    (existsM_eq_false_iff fLit2 s).mpr (litSubst_noMatchAll (by decide) h)
  simp [rule1, he]

theorem rule2_id {s : List Char} (h : NoMatchAll fPat2 s) : rule2 s = s := by
  have he : existsM fPat2 s = false := (existsM_eq_false_iff fPat2 s).mpr h
  simp [rule2, he]

/-- A second pass of the fix-all script over its own output changes nothing
and reports no change. -/
theorem fix_all_idem (s : List Char) :
    fix_workflow_file ((fix_workflow_file s).content) =
      ⟨false, [], (fix_workflow_file s).content⟩ := by
  have hcontent : (fix_workflow_file s).content = rule2 (rule1 s) := rfl
  rw [hcontent]
  have hz : countOcc A2 (rule2 (rule1 s)) = 0 := rule2_A2_zero (rule1_A2_zero s)
  have hnm : NoMatchAll fPat2 (rule2 (rule1 s)) := rule2_noMatch (rule1 s)
  have e1 : existsM fLit2 (rule2 (rule1 s)) = false :=
    (existsM_eq_false_iff _ _).mpr (litSubst_noMatchAll (by decide) hz)
  have hr1 : rule1 (rule2 (rule1 s)) = rule2 (rule1 s) := rule1_id hz
  have e2 : existsM fPat2 (rule2 (rule1 s)) = false :=
    (existsM_eq_false_iff _ _).mpr hnm
  have hr2 : rule2 (rule2 (rule1 s)) = rule2 (rule1 s) := rule2_id hnm
  unfold fix_workflow_file
  rw [hr1, hr2, e1, e2]
  simp

end FixAll

namespace FixPnpm

theorem setupV4Try_out {s o r : List Char} (h : setupV4Try s = some (o, r)) :
    ∃ X, o = PNPM_SETUP ++ X := by
  simp only [setupV4Try] at h
  split at h
  case' isFalse => exact Option.noConfusion h
  next =>
    split at h
    case' isFalse => exact Option.noConfusion h
    next =>
      split at h
      next => exact Option.noConfusion h
      next =>
        split at h
        case' isFalse => exact Option.noConfusion h
        next =>
          rw [Option.some.injEq, Prod.mk.injEq] at h
          exact ⟨_, h.1.symm⟩

def ppPre : List Char := "      - name: 📦 Setup pnpm\n        uses: ".toList

def ppSuf : List Char := "@v2\n        with:\n          version: 8\n\n".toList

theorem pp_split : PNPM_SETUP = ppPre ++ (marker ++ ppSuf) := by decide

/-- Whenever fix-pnpm's rule fired at least once, its output carries the
marker. -/
theorem marker_out {s : List Char} (h : 0 < countM fIns s) :
    containsSub marker (scan fIns s) = true := by
  rcases scan_first fIns s with ⟨_, _, hcm⟩ | ⟨m, o, r, hm, _, _, hsc, _⟩
  · rw [hcm] at h
    exact absurd h (by omega)
  · obtain ⟨X, hX⟩ := setupV4Try_out hm
    rw [hsc, hX]
    refine (containsSub_iff _).mpr
      ⟨marker ++ (ppSuf ++ (X ++ scan fIns r)),
        ⟨s.take m ++ ppPre, ?_⟩, List.prefix_append _ _⟩
    rw [pp_split]
    simp [List.append_assoc]

/-- A second pass of fix-pnpm over what the first pass left on disk is a
reported no-op. -/
theorem fix_pnpm_idem (s : List Char) :
    fix_workflow_file ((fix_workflow_file s).2) =
      (false, (fix_workflow_file s).2) := by
  by_cases hm : containsSub marker s = true
  · have h1 : fix_workflow_file s = (false, s) := by
      unfold fix_workflow_file
      rw [if_pos hm]
    rw [h1]
    exact h1
  · by_cases hc : 0 < countM fIns s
    · have h1 : fix_workflow_file s = (true, scan fIns s) := by
        unfold fix_workflow_file
        rw [if_neg hm, if_pos hc]
      rw [h1]
      show fix_workflow_file (scan fIns s) = (false, scan fIns s)
      unfold fix_workflow_file
      rw [if_pos (marker_out hc)]
    · have h1 : fix_workflow_file s = (false, s) := by
        unfold fix_workflow_file
        rw [if_neg hm, if_neg hc]
      rw [h1]
      exact h1

end FixPnpm

/-! ### Line decomposition of the MULTILINE line-end substitutions -/

/-- `text.split('\n')`. -/
def splitLines : List Char → List (List Char)
  | [] => [[]]
  | c :: t =>
    if c = '\n' then [] :: splitLines t
    else
      match splitLines t with
      | [] => [[c]]
      | h :: r => (c :: h) :: r

/-- `'\n'.join(lines)`. -/
def joinLines : List (List Char) → List Char
  | [] => []
  | [l] => l
  | l :: r => l ++ '\n' :: joinLines r

/-- What `re.sub(pat + '$', repl, MULTILINE)` does to one line: replace the
suffix `pat` when the line ends with it, leave the line alone otherwise. -/
def fixLine (pat repl l : List Char) : List Char :=
  if pat.isSuffixOf l then l.take (l.length - pat.length) ++ repl else l

theorem isSuf_iff {l₁ l₂ : List Char} : l₁.isSuffixOf l₂ = true ↔ l₁ <:+ l₂ :=
  List.isSuffixOf_iff_suffix

theorem splitLines_ne_nil (s : List Char) : splitLines s ≠ [] := by
  cases s with
  | nil => simp [splitLines]
  | cons c t =>
    simp only [splitLines]
    split
    · simp
    · split <;> simp

theorem joinLines_cons (a : List Char) {r : List (List Char)} (h : r ≠ []) :
    joinLines (a :: r) = a ++ '\n' :: joinLines r := by
  obtain ⟨b, r', rfl⟩ := List.exists_cons_of_ne_nil h
  rfl

theorem splitLines_structure (s : List Char) :
    ('\n' ∉ s ∧ splitLines s = [s]) ∨
      ∃ l t, s = l ++ '\n' :: t ∧ '\n' ∉ l ∧
        splitLines s = l :: splitLines t := by
  induction s with
  | nil => exact Or.inl ⟨by simp, rfl⟩
  | cons c s' ih =>
    by_cases hc : c = '\n'
    · subst hc
      right
      exact ⟨[], s', rfl, by simp, by simp [splitLines]⟩
    · rcases ih with ⟨hmem, heq⟩ | ⟨l, t, hs, hmem, heq⟩
      · left
        refine ⟨?_, by simp [splitLines, hc, heq]⟩
        intro h
        rcases List.mem_cons.mp h with he | he
        · exact hc he.symm
        · exact hmem he
      · right
        refine ⟨c :: l, t, by rw [hs]; rfl, ?_, by simp [splitLines, hc, heq]⟩
        intro h
        rcases List.mem_cons.mp h with he | he
        · exact hc he.symm
        · exact hmem he

theorem fixLine_nil {pat : List Char} (repl : List Char) (hp : pat ≠ []) :
    fixLine pat repl [] = [] := by
  unfold fixLine
  rw [if_neg]
  intro hb
  exact hp (List.suffix_nil.mp (isSuf_iff.mp hb))

theorem fixLine_self (pat repl : List Char) : fixLine pat repl pat = repl := by
  unfold fixLine
  rw [if_pos (isSuf_iff.mpr (List.suffix_refl pat))]
  simp

theorem fixLine_cons {pat : List Char} (repl : List Char) {c : Char}
    {l' : List Char} (hne : pat ≠ c :: l') :
    fixLine pat repl (c :: l') = c :: fixLine pat repl l' := by
  by_cases hsuf : pat <:+ l'
  · have hsuf2 : pat <:+ c :: l' := hsuf.trans (List.suffix_cons c l')
    unfold fixLine
    rw [if_pos (isSuf_iff.mpr hsuf2), if_pos (isSuf_iff.mpr hsuf)]
    have hlp : pat.length ≤ l'.length := hsuf.length_le
    rw [List.length_cons]
    have htk : (c :: l').take (l'.length + 1 - pat.length) =
        c :: l'.take (l'.length - pat.length) := by
      have he : l'.length + 1 - pat.length = (l'.length - pat.length) + 1 := by
        omega
      rw [he, List.take_succ_cons]
    rw [htk]
    rfl
  · have hsuf2 : ¬ pat <:+ c :: l' := by
      intro hsb
      obtain ⟨u, hu⟩ := hsb
      cases u with
      | nil => exact hne (by simpa using hu)
      | cons a u' =>
        apply hsuf
        have hu2 : a :: (u' ++ pat) = c :: l' := hu
        injection hu2 with h1 h2
        exact ⟨u', h2⟩
    unfold fixLine
    rw [if_neg (fun hb => hsuf2 (isSuf_iff.mp hb)),
      if_neg (fun hb => hsuf (isSuf_iff.mp hb))]

theorem le_no_nl_match_nl {pat repl : List Char} (hp : pat ≠ [])
    (hnp : '\n' ∉ pat) (t : List Char) : leTry pat repl ('\n' :: t) = none := by
  rw [leTry_eq_none_iff]
  rintro ⟨hpre, _⟩
  obtain ⟨p0, pat', rfl⟩ := List.exists_cons_of_ne_nil hp
  have h0 := (List.cons_prefix_cons.mp hpre).1
  exact hnp (by rw [h0]; exact List.mem_cons_self _ _)

/-- On a newline-free text, the MULTILINE line-end substitution is exactly
the per-line suffix replacement. -/
theorem scan_single_line {pat repl : List Char} (hp : pat ≠ [])
    (hnp : '\n' ∉ pat) :
    ∀ l, '\n' ∉ l →
      scan (leSubst pat repl hp) l = fixLine pat repl l := by
  intro l
  induction l with
  | nil =>
    intro _
    rw [scan_nil, fixLine_nil repl hp]
  | cons c l' ih =>
    intro hmem
    have hmem' : '\n' ∉ l' := fun h => hmem (List.mem_cons_of_mem _ h)
    cases hmatch : (leSubst pat repl hp).tryAt (c :: l') with
    | some pr =>
      obtain ⟨o, r⟩ := pr
      obtain ⟨ho, hr, hpre, hend⟩ := leTry_eq_some_iff.mp hmatch
      have heq : pat = c :: l' := by
        rcases Nat.lt_or_ge pat.length (c :: l').length with hlt | hge
        · exfalso
          have hd := drop_cons_getD hlt
          rw [hd] at hend
          have hnl : (c :: l').getD pat.length ' ' = '\n' := by
            simpa [atLineEnd] using hend
          exact hmem (hnl ▸ getD_mem hlt)
        · exact List.IsPrefix.eq_of_length hpre
            (by have := hpre.length_le; omega)
      have hr2 : r = [] := by
        rw [hr, heq, List.drop_length]
      rw [scan_cons_match _ hmatch, ho, hr2, scan_nil, List.append_nil,
        ← heq, fixLine_self]
    | none =>
      rw [scan_cons_skip _ hmatch, ih hmem']
      have hne : pat ≠ c :: l' := by
        rintro rfl
        have h2 := leTry_eq_none_iff.mp hmatch
        refine h2 ⟨List.prefix_refl _, ?_⟩
        rw [List.drop_length]
        rfl
      rw [fixLine_cons repl hne]

/-- Scanning through one full line of the text: the line is rewritten by the
per-line rule and the scan continues after its newline. -/
theorem scan_line_append {pat repl : List Char} (hp : pat ≠ [])
    (hnp : '\n' ∉ pat) :
    ∀ l t, '\n' ∉ l →
      scan (leSubst pat repl hp) (l ++ '\n' :: t) =
        fixLine pat repl l ++ '\n' :: scan (leSubst pat repl hp) t := by
  intro l
  induction l with
  | nil =>
    intro t _
    simp only [List.nil_append]
    have hmatch : (leSubst pat repl hp).tryAt ('\n' :: t) = none :=
      le_no_nl_match_nl hp hnp t
    rw [scan_cons_skip _ hmatch, fixLine_nil repl hp]
    rfl
  | cons c l' ih =>
    intro t hmem
    have hmem' : '\n' ∉ l' := fun h => hmem (List.mem_cons_of_mem _ h)
    cases hmatch : (leSubst pat repl hp).tryAt ((c :: l') ++ '\n' :: t) with
    | some pr =>
      obtain ⟨o, r⟩ := pr
      obtain ⟨ho, hr, hpre, hend⟩ := leTry_eq_some_iff.mp hmatch
      have heq : pat = c :: l' := by
        rcases Nat.lt_trichotomy pat.length (c :: l').length with hlt | heql | hgt
        · exfalso
          have hple : pat <+: c :: l' := by
            rcases pre_or_pre hpre
              (List.prefix_append (c :: l') ('\n' :: t)) with hc1 | hc1
            · exact hc1
            · exfalso
              have := hc1.length_le
              omega
          have hdrop : ((c :: l') ++ '\n' :: t).drop pat.length =
              (c :: l').drop pat.length ++ '\n' :: t :=
            List.drop_append_of_le_length (by omega)
          rw [hdrop, drop_cons_getD hlt] at hend
          have hnl : (c :: l').getD pat.length ' ' = '\n' := by
            simpa [atLineEnd] using hend
          exact hmem (hnl ▸ getD_mem hlt)
        · have h1 := List.prefix_iff_eq_take.mp hpre
          rw [heql, List.take_left] at h1
          exact h1
        · exfalso
          have h2 : c :: l' <+: pat := by
            rcases pre_or_pre hpre
              (List.prefix_append (c :: l') ('\n' :: t)) with hc1 | hc1
            · exfalso
              have := hc1.length_le
              omega
            · exact hc1
          have h3 : pat.drop (c :: l').length <+: '\n' :: t :=
            pre_drop_of_pre h2 hpre
          have h4 : pat.drop (c :: l').length ≠ [] := by
            intro hnil
            have hlen0 : (pat.drop (c :: l').length).length = 0 := by
              rw [hnil]
              rfl
            rw [List.length_drop] at hlen0
            omega
          obtain ⟨q0, q', hq⟩ := List.exists_cons_of_ne_nil h4
          rw [hq] at h3
          have hq0 : q0 = '\n' := (List.cons_prefix_cons.mp h3).1
          have hqmem : q0 ∈ pat := by
            have hmem2 : q0 ∈ pat.drop (c :: l').length := by
              rw [hq]
              exact List.mem_cons_self _ _
            exact List.mem_of_mem_drop hmem2
          exact hnp (by rwa [hq0] at hqmem)
      have hr2 : r = '\n' :: t := by
        rw [hr, heq]
        exact List.drop_left _ _
      have hmatch' : (leSubst pat repl hp).tryAt
          (c :: (l' ++ '\n' :: t)) = some (o, r) := hmatch
      have hnlt : (leSubst pat repl hp).tryAt ('\n' :: t) = none :=
        le_no_nl_match_nl hp hnp t
      show scan (leSubst pat repl hp) (c :: (l' ++ '\n' :: t)) = _
      rw [scan_cons_match _ hmatch', ho, hr2, scan_cons_skip _ hnlt,
        ← heq, fixLine_self]
    | none =>
      have hmatch' : (leSubst pat repl hp).tryAt
          (c :: (l' ++ '\n' :: t)) = none := hmatch
      show scan (leSubst pat repl hp) (c :: (l' ++ '\n' :: t)) = _
      rw [scan_cons_skip _ hmatch', ih t hmem']
      have hne : pat ≠ c :: l' := by
        rintro rfl
        have h2 := leTry_eq_none_iff.mp hmatch
        refine h2 ⟨List.prefix_append _ _, ?_⟩
        rw [List.drop_left]
        rfl
      rw [fixLine_cons repl hne]
      rfl

theorem scan_lines_aux {pat repl : List Char} (hp : pat ≠ [])
    (hnp : '\n' ∉ pat) :
    ∀ n s, s.length ≤ n →
      scan (leSubst pat repl hp) s =
        joinLines ((splitLines s).map (fixLine pat repl)) := by
  intro n
  induction n with
  | zero =>
    intro s hsn
    have hs0 : s = [] := List.eq_nil_of_length_eq_zero (Nat.le_zero.mp hsn)
    subst hs0
    rw [scan_nil]
    show ([] : List Char) = joinLines [fixLine pat repl []]
    rw [show joinLines [fixLine pat repl []] = fixLine pat repl [] from rfl,
      fixLine_nil repl hp]
  | succ n ih =>
    intro s hsn
    rcases splitLines_structure s with ⟨hmem, heq⟩ | ⟨l, t, hs, hmem, heq⟩
    · rw [heq, scan_single_line hp hnp s hmem]
      rfl
    · rw [heq, hs, scan_line_append hp hnp l t hmem]
      have ht : t.length ≤ n := by
        have hlen := congrArg List.length hs
        simp [List.length_append] at hlen
        omega
      rw [List.map_cons,
        joinLines_cons _ (fun hm => splitLines_ne_nil t (List.map_eq_nil_iff.mp hm)),
        ih t ht]

/-- `re.sub(pat + '$', repl, MULTILINE)` equals splitting into lines, fixing
each line's suffix, and joining back. -/
theorem scan_lines {pat repl : List Char} (hp : pat ≠ []) (hnp : '\n' ∉ pat)
    (s : List Char) :
    scan (leSubst pat repl hp) s =
      joinLines ((splitLines s).map (fixLine pat repl)) :=
  scan_lines_aux hp hnp s.length s (Nat.le_refl _)

/-! ## The claims -/

/-- C1, counterexample: on the text `run: npm ci x` the maintenance script
sets the modified flag — so the file is overwritten and a backup written —
yet the content written back equals the original text.  Persisting is not
"if and only if the final text differs". -/
theorem C1_cex :
    FixGithub.fix_workflow ("run: npm ci x".toList) =
      (true, "run: npm ci x".toList) := by
  decide

/-- C1, amended: the fix-all script's success flag holds exactly when the
final text differs from the original; the maintenance script guarantees only
one direction — when its modified flag is false, the content equals the
original (when the flag is true the content may still equal the
original). -/
theorem C1_amended (s : List Char) :
    ((FixAll.fix_workflow_file s).changed = true ↔
      ¬ (FixAll.fix_workflow_file s).content = s) ∧
    ((FixGithub.fix_workflow s).1 = false →
      (FixGithub.fix_workflow s).2 = s) := by
  constructor
  · show (FixAll.rule2 (FixAll.rule1 s) != s) = true ↔ _
    rw [bne_iff_ne]
    exact Iff.rfl
  · exact FixGithub.fix_workflow_unmodified

/-- C2, counterexample: with the workflows directory missing, three of the
four scripts do not abort: they complete with status 0, having processed no
files. -/
theorem C2_cex :
    FixAll.run none = (0, []) ∧ FixPnpm.run none = (0, []) ∧
      UpdatePnpm.run none = (0, []) :=
  ⟨rfl, rfl, rfl⟩

/-- C2, amended: only the maintenance script treats a missing workflows
directory as fatal, exiting with status 1; the other three scripts complete
normally with status 0 because `glob` on a missing directory yields nothing;
all four process no files. -/
theorem C2_amended :
    FixGithub.run none = (1, []) ∧ FixAll.run none = (0, []) ∧
      FixPnpm.run none = (0, []) ∧ UpdatePnpm.run none = (0, []) :=
  ⟨rfl, rfl, rfl, rfl⟩

/-- C3, counterexample: a second run of the maintenance script over what the
first run wrote for `run: npm ci x` reports the file as modified again — it
does not report "no changes needed". -/
theorem C3_cex :
    (FixGithub.fix_workflow
      ((FixGithub.fix_workflow ("run: npm ci x".toList)).2)).1 = true := by
  decide

/-- C3, amended: every script's full rule set is idempotent on the text: the
second application returns the first application's output unchanged.  The
fix-all and fix-pnpm scripts also report no change on the second run; the
maintenance script's modified flag can be set again on an unchanged file. -/
theorem C3_amended (s : List Char) :
    FixAll.fix_workflow_file ((FixAll.fix_workflow_file s).content) =
      ⟨false, [], (FixAll.fix_workflow_file s).content⟩ ∧
    (FixGithub.fix_workflow ((FixGithub.fix_workflow s).2)).2 =
      (FixGithub.fix_workflow s).2 ∧
    FixPnpm.fix_workflow_file ((FixPnpm.fix_workflow_file s).2) =
      (false, (FixPnpm.fix_workflow_file s).2) :=
  ⟨FixAll.fix_all_idem s, FixGithub.fix_workflow_idem s,
    FixPnpm.fix_pnpm_idem s⟩

/-- C4, counterexample: on the spec's scenario file the version-bump script
also rewrites the action reference, so the output no longer contains
`pnpm/action-setup@v4`; and no reported change message reads
"version 9 → 10 (1 occurrence)". -/
theorem C4_cex :
    containsSub A2 (FixAll.fix_workflow_file
      ("      - uses: pnpm/action-setup@v4\n        with:\n          version: 9\n".toList)).content
        = false ∧
    "version 9 → 10 (1 occurrence)" ∉
      (FixAll.fix_workflow_file
        ("      - uses: pnpm/action-setup@v4\n        with:\n          version: 9\n".toList)).changes := by
  decide

/-- C4, amended: on the scenario file the version-bump script reports
success, rewrites `@v4` to `@v2` and `version: 9` to `version: 10`, and
reports "Updated action version v4 → v2 (1 occurrences)" and "Updated pnpm
version 9 → 10 (1 occurrences)". -/
theorem C4_amended :
    FixAll.fix_workflow_file
        ("      - uses: pnpm/action-setup@v4\n        with:\n          version: 9\n".toList) =
      ⟨true,
        ["Updated action version v4 → v2 (1 occurrences)",
          "Updated pnpm version 9 → 10 (1 occurrences)"],
        "      - uses: pnpm/action-setup@v2\n        with:\n          version: 10\n".toList⟩ ∧
    containsSub ("version: 10".toList)
      ("      - uses: pnpm/action-setup@v2\n        with:\n          version: 10\n".toList) = true ∧
    containsSub ("version: 9".toList)
      ("      - uses: pnpm/action-setup@v2\n        with:\n          version: 10\n".toList) = false := by
  decide

/-- C5, counterexample: a text with exactly one occurrence of
`cache: 'npm'` and a pre-existing `cache: 'pnpm'` yields two occurrences of
the replacement, not one. -/
theorem C5_cex :
    countOcc A1 ("cache: 'npm'\ncache: 'pnpm'".toList) = 1 ∧
    countOcc B1
      (scan FixGithub.fCache ("cache: 'npm'\ncache: 'pnpm'".toList)) = 2 := by
  decide

/-- C5, amended: for both literal rules, the output's B-count is the input's
B-count plus the input's A-count (so exactly k only when no B pre-exists),
and the output's A-count is zero. -/
theorem C5_amended (s : List Char) :
    countOcc B1 (scan FixGithub.fCache s) = countOcc B1 s + countOcc A1 s ∧
    countOcc A1 (scan FixGithub.fCache s) = 0 ∧
    countOcc B2 (scan FixAll.fLit2 s) = countOcc B2 s + countOcc A2 s ∧
    countOcc A2 (scan FixAll.fLit2 s) = 0 := by
  refine ⟨?_, ?_, ?_, ?_⟩
  · exact lit_count (by decide) (by decide) (ball_swap (by decide))
      (ball_swap (by decide)) (by decide) (ball_swap (by decide)) s
  · exact litSubst_kill (by decide)
      (patBlockOk_of_parts (by decide) (by decide) (by decide)) s
  · exact lit_count (by decide) (by decide) (ball_swap (by decide))
      (ball_swap (by decide)) (by decide) (ball_swap (by decide)) s
  · exact litSubst_kill (by decide)
      (patBlockOk_of_parts (by decide) (by decide) (by decide)) s

/-- C6: the contextual substitutions only rewrite the target digit inside the
anchor window.  Either nothing matches and the text is returned verbatim, or
the leftmost match decomposes the text into an untouched prefix (where the
rule matches nowhere), the window `anchor …with: …version:` kept character
for character with only its target digit replaced by ` 10`, and a recursively
processed remainder. -/
theorem C6 (s : List Char) :
    (scan fPat8 s = s ∨
      ∃ m w1 w2 z r, w1 ≠ [] ∧ (∀ c ∈ w1, pyIsSpace c = true) ∧
        w2 ≠ [] ∧ (∀ c ∈ w2, pyIsSpace c = true) ∧
        (∀ c ∈ z, pyIsSpace c = true) ∧
        (∀ k < m, fPat8.tryAt (s.drop k) = none) ∧
        s = s.take m ++ (g8core w1 w2 ++ z ++ '8' :: r) ∧
        scan fPat8 s =
          s.take m ++ (g8core w1 w2 ++ tenL) ++ scan fPat8 r) ∧
    (scan fPat2 s = s ∨
      ∃ m d w1 w2 z r, d ≠ [] ∧ (∀ c ∈ d, c.isDigit = true) ∧
        w1 ≠ [] ∧ (∀ c ∈ w1, pyIsSpace c = true) ∧
        w2 ≠ [] ∧ (∀ c ∈ w2, pyIsSpace c = true) ∧
        (∀ c ∈ z, pyIsSpace c = true) ∧
        (∀ k < m, fPat2.tryAt (s.drop k) = none) ∧
        s = s.take m ++ (g2core d w1 w2 ++ z ++ '9' :: r) ∧
        scan fPat2 s =
          s.take m ++ (g2core d w1 w2 ++ tenL) ++ scan fPat2 r) := by
  constructor
  · rcases scan_first fPat8 s with ⟨_, hsc, _⟩ | ⟨m, o, r, hm, _, hbefore, hsc, _⟩
    · exact Or.inl hsc
    · right
      obtain ⟨w1, w2, z, hw1, hw1s, hw2, hw2s, hzs, ho, hdm⟩ :=
        pat8Try_eq_some hm
      refine ⟨m, w1, w2, z, r, hw1, hw1s, hw2, hw2s, hzs, hbefore, ?_, ?_⟩
      · conv_lhs => rw [← List.take_append_drop m s]
        rw [hdm]
      · rw [hsc, ho]
        simp [List.append_assoc]
  · rcases scan_first fPat2 s with ⟨_, hsc, _⟩ | ⟨m, o, r, hm, _, hbefore, hsc, _⟩
    · exact Or.inl hsc
    · right
      obtain ⟨d, w1, w2, z, hd, hdd, hw1, hw1s, hw2, hw2s, hzs, ho, hdm⟩ :=
        pat2Try_eq_some hm
      refine ⟨m, d, w1, w2, z, r, hd, hdd, hw1, hw1s, hw2, hw2s, hzs,
        hbefore, ?_, ?_⟩
      · conv_lhs => rw [← List.take_append_drop m s]
        rw [hdm]
      · rw [hsc, ho]
        simp [List.append_assoc]

/-- C7: with the marker `pnpm/action-setup` anywhere in the text, fix-pnpm
returns the file untouched and unmodified, and the maintenance script's
insertion rule leaves the text unchanged, whether or not the anchor
matches. -/
theorem C7 (s : List Char) (h : containsSub marker s = true) :
    FixPnpm.fix_workflow_file s = (false, s) ∧ FixGithub.step4 s = s := by
  constructor
  · unfold FixPnpm.fix_workflow_file
    rw [if_pos h]
  · exact FixGithub.step4_id_marker h

/-- C7, witness at the text `pnpm/action-setup` itself. -/
theorem C7_witness :
    FixPnpm.fix_workflow_file ("pnpm/action-setup".toList) =
        (false, "pnpm/action-setup".toList) ∧
      FixGithub.step4 ("pnpm/action-setup".toList) =
        "pnpm/action-setup".toList :=
  C7 _ (by decide)

/-- C8: a file with none of the precondition substrings short-circuits the
whole maintenance rule set: the result is unmodified with byte-identical
content. -/
theorem C8 (s : List Char) (h : FixGithub.needs_pnpm_setup s = false) :
    FixGithub.fix_workflow s = (false, s) := by
  unfold FixGithub.fix_workflow
  simp [h]

/-- C8, witness at a text with no npm directive. -/
theorem C8_witness :
    FixGithub.fix_workflow ("echo hi".toList) = (false, "echo hi".toList) :=
  C8 _ (by decide)

/-- C9, counterexample: fix-pnpm and update-pnpm process files in directory
enumeration order, not sorted order: a directory listing `b.yml` before
`a.yml` is processed as `[b.yml, a.yml]`, which is not sorted. -/
theorem C9_cex :
    (UpdatePnpm.run
        (some [("b.yml".toList, marker), ("a.yml".toList, marker)])).2 =
      ["b.yml".toList, "a.yml".toList] ∧
    ¬ List.Sorted (· ≤ ·)
      (UpdatePnpm.run
        (some [("b.yml".toList, marker), ("a.yml".toList, marker)])).2 := by
  constructor
  · rfl
  · decide

/-- C9, amended: the maintenance and fix-all scripts process files in sorted
filename order; fix-pnpm and update-pnpm process them in directory
enumeration (glob) order, a subsequence of the listing. -/
theorem C9_amended (dir : Option Listing) :
    List.Sorted (· ≤ ·) (FixGithub.run dir).2 ∧
    List.Sorted (· ≤ ·) (FixAll.run dir).2 ∧
    List.Sublist (FixPnpm.run dir).2 ((globYml dir).map Prod.fst) ∧
    List.Sublist (UpdatePnpm.run dir).2 ((globYml dir).map Prod.fst) := by
  refine ⟨?_, ?_, ?_, ?_⟩
  · cases dir with
    | none => exact List.sorted_nil
    | some d => exact List.sorted_insertionSort _ _
  · exact List.sorted_insertionSort _ _
  · exact List.Sublist.map _ (List.filter_sublist _)
  · exact List.Sublist.map _ (List.filter_sublist _)

/-- C10: the npm→pnpm line rewrites are exactly per-line suffix
replacements: split into lines, replace the suffix `run: npm ci` (resp.
`run: npm install`) only on lines that end with it, join back; every line
not ending with the pattern — for example `run: npm install -g pkg` — is
kept character for character. -/
theorem C10 :
    (∀ s, scan FixGithub.fCi s =
      joinLines ((splitLines s).map (fixLine npmci ciRepl))) ∧
    (∀ s, scan FixGithub.fIn s =
      joinLines ((splitLines s).map (fixLine npmin inRepl))) ∧
    (∀ l, ¬ npmci <:+ l → fixLine npmci ciRepl l = l) ∧
    (∀ l, ¬ npmin <:+ l → fixLine npmin inRepl l = l) := by
  refine ⟨fun s => scan_lines (by decide) (by decide) s,
    fun s => scan_lines (by decide) (by decide) s,
    fun l h => ?_, fun l h => ?_⟩
  · unfold fixLine
    rw [if_neg (fun hb => h (isSuf_iff.mp hb))]
  · unfold fixLine
    rw [if_neg (fun hb => h (isSuf_iff.mp hb))]

end WF
